import Mathlib

/-! SubMerge: merging two subtitle tracks.

A shallow embedding of `src/src/SubMerge.cpp`.

* `TTime` and `TId` are `unsigned long` in the source.  The code only compares
  timestamps and takes `min` / `max` of them, and ids are `size() + 1` of a
  vector, so no operation can wrap around; both are modelled by `Nat`.  The
  width of `unsigned long` only matters inside `std::stoul` (`ULONG_MAX`).
* A C++ exception is modelled by `Except.error`, one `Error` constructor for
  each exception that can be raised.  No function of the source catches them
  (but for the `stoul` of the id line), so an exception leaves `Merge` or
  `Read` and the partly filled vector is not part of the result.
* A `vector<CSubtitle>` is a `List CSubtitle`; an iterator range `[i, end)` is
  the list of the elements that are still to be visited, so `i != end` reads
  `i ≠ []` and `++i` drops the head.
* An `istream` is the list of the characters not yet extracted with its
  `eofbit` and `failbit`; an `ostream` is the list of the characters written.
  The loops over a stream are written with a bound on the number of
  iterations, `input.rest.length + 1`, which is proved to be enough.
-/

namespace SubMerge

deriving instance DecidableEq for Except

/-- The two `throw invalid_argument( ... )` sites of the source. -/
inductive Error where
  /-- "The 'beginTime' should be less than the 'endTime'." -/
  | beginNotLessThanEnd
  /-- "The uniting ranges should have intersection." -/
  | noIntersection
  /-- The `std::invalid_argument` of `std::stoul`: no conversion was possible. -/
  | stoulInvalidArgument
  /-- The `std::out_of_range` of `std::stoul`. -/
  | stoulOutOfRange
  /-- The `std::out_of_range` of `std::string::substr`. -/
  | substrOutOfRange
deriving DecidableEq, Repr

/-! ## CTimeRange -/

/-- The two private fields of `class CTimeRange`. -/
structure CTimeRange where
  beginTime : Nat
  endTime : Nat
deriving DecidableEq, Repr

namespace CTimeRange

/-- The constructor `CTimeRange( beginTime, endTime )`: it throws unless
`beginTime < endTime`. -/
def new (beginTime endTime : Nat) : Except Error CTimeRange :=
  if ¬ (beginTime < endTime) then
    throw Error.beginNotLessThanEnd
  else
    pure ⟨beginTime, endTime⟩

def Begin (r : CTimeRange) : Nat := r.beginTime

def End (r : CTimeRange) : Nat := r.endTime

def IsBefore (r anotherTimeRange : CTimeRange) : Bool :=
  decide (r.endTime ≤ anotherTimeRange.beginTime)

def IsAfter (r anotherTimeRange : CTimeRange) : Bool :=
  decide (anotherTimeRange.endTime ≤ r.beginTime)

def HasIntersection (r range : CTimeRange) : Bool :=
  !r.IsBefore range && !r.IsAfter range

def Union (r range : CTimeRange) : Except Error CTimeRange :=
  if !r.HasIntersection range then
    throw Error.noIntersection
  else
    CTimeRange.new (min r.beginTime range.beginTime) (max r.endTime range.endTime)

/-- The class invariant: every `CTimeRange` object of the program went through
the constructor (or is a copy of one that did), so it has `begin < end`. -/
def Valid (r : CTimeRange) : Prop := r.beginTime < r.endTime

instance (r : CTimeRange) : Decidable r.Valid :=
  inferInstanceAs (Decidable (r.beginTime < r.endTime))

/-- The range `outer` contains the range `inner`. -/
def Contains (outer inner : CTimeRange) : Prop :=
  outer.beginTime ≤ inner.beginTime ∧ inner.endTime ≤ outer.endTime

instance (outer inner : CTimeRange) : Decidable (outer.Contains inner) :=
  inferInstanceAs (Decidable (_ ∧ _))

end CTimeRange

/-! ## CSubtitle -/

structure CSubtitle where
  id : Nat
  time : CTimeRange
  text : String
deriving DecidableEq, Repr

namespace CSubtitle

/-- The constructor `CSubtitle( subId )`: `id( subId ), time( 0, 1 )` and an
empty text. -/
def new (subId : Nat) : Except Error CSubtitle := do
  let time ← CTimeRange.new 0 1
  pure ⟨subId, time, ""⟩

def Id (s : CSubtitle) : Nat := s.id

def Time (s : CSubtitle) : CTimeRange := s.time

def Text (s : CSubtitle) : String := s.text

def SetText (s : CSubtitle) (subText : String) : CSubtitle :=
  { s with text := subText }

def SetTime (s : CSubtitle) (subTime : CTimeRange) : CSubtitle :=
  { s with time := subTime }

end CSubtitle

/-! ## CSubtitles::Merge -/

/-- The source's `subtitles.back().f( ... )`: the last element of the vector is
updated in place. -/
def updateBack (subtitles : List CSubtitle) (f : CSubtitle → CSubtitle) :
    List CSubtitle :=
  match subtitles.getLast? with
  | none => subtitles
  | some s => subtitles.dropLast ++ [f s]

/-- The variables of `Merge` that its first loop changes: what is left of the
two inputs (`[i1, end1)` and `[i2, end2)`) and the output vector. -/
structure Cursors where
  i1 : List CSubtitle
  i2 : List CSubtitle
  subtitles : List CSubtitle
deriving DecidableEq, Repr

/-- The loop `while( i1 != end1 && i2 != end2 )` of `Merge`, lines 290-306. -/
def mergeLoop : List CSubtitle → List CSubtitle → List CSubtitle → Except Error Cursors
  | a :: as, b :: bs, subtitles => do
    let subtitles := subtitles ++ [← CSubtitle.new (subtitles.length + 1)]
    if a.Time.HasIntersection b.Time then
      let subtitles := updateBack subtitles (·.SetTime (← a.Time.Union b.Time))
      let subtitles := updateBack subtitles (·.SetText (a.Text ++ b.Text))
      mergeLoop as bs subtitles
    else if a.Time.IsBefore b.Time then
      let subtitles := updateBack subtitles (·.SetTime a.Time)
      let subtitles := updateBack subtitles (·.SetText a.Text)
      mergeLoop as (b :: bs) subtitles
    else
      let subtitles := updateBack subtitles (·.SetTime b.Time)
      let subtitles := updateBack subtitles (·.SetText b.Text)
      mergeLoop (a :: as) bs subtitles
  | i1, i2, subtitles => pure ⟨i1, i2, subtitles⟩
termination_by i1 i2 => i1.length + i2.length

/-- The loop `for( ; i1 != end1; ++i1 )` of `Merge`, lines 313-317. -/
def drain : List CSubtitle → List CSubtitle → Except Error (List CSubtitle)
  | [], subtitles => pure subtitles
  | a :: rest, subtitles => do
    let subtitles := subtitles ++ [← CSubtitle.new (subtitles.length + 1)]
    let subtitles := updateBack subtitles (·.SetTime a.Time)
    let subtitles := updateBack subtitles (·.SetText a.Text)
    drain rest subtitles

/-- The function `CSubtitles::Merge( subtitles1, subtitles2, subtitlesMerged )`.
The third argument is the content of `subtitlesMerged` at the call (the source
appends to it and never clears it); the result is the returned `bool` and the
content of `subtitlesMerged` at the return. -/
def Merge (subtitles1 subtitles2 subtitlesMerged : List CSubtitle) :
    Except Error (Bool × List CSubtitle) := do
  let c ← mergeLoop subtitles1 subtitles2 subtitlesMerged
  let i1 := if c.i2 ≠ [] then c.i2 else c.i1
  let subtitles ← drain i1 c.subtitles
  pure (true, subtitles)

/-! ## Strings, the standard library and streams

A `std::string` that the parser or the writer handles is modelled by the list
of its characters, one `Char` for one `char`.  The library functions the source
calls are modelled from the C++ standard: `std::stoul`, `std::string::substr`,
`std::getline`, the stream state bits, and the decimal `operator<<` with `setw`
and `setfill`. -/

/-- The largest `unsigned long`, here of 64 bits.  The proofs only use that it
is at least `10^9`; the value itself shows in one evaluation, of a time block
with a `-` sign. -/
def ULONG_MAX : Nat := 2 ^ 64 - 1

/-- The library's `isspace` in the "C" locale: space, `\t`, `\n`, `\v`, `\f`, `\r`. -/
def isspace (c : Char) : Bool :=
  c = ' ' || c = '\t' || c = '\n' || c = Char.ofNat 11 || c = Char.ofNat 12 || c = '\r'

/-- The value of a sequence of decimal digits, read left to right. -/
def digitsValue (ds : List Char) : Nat :=
  ds.foldl (fun acc c => 10 * acc + (c.toNat - '0'.toNat)) 0

/-- What `strtoul` finds after the leading white space. -/
def stoul.afterSpace (str : List Char) : List Char := str.dropWhile isspace

/-- The length of the sign `strtoul` accepts: one `+` or `-`, or nothing. -/
def stoul.signLength (str : List Char) : Nat :=
  if (stoul.afterSpace str).head? = some '-' ∨ (stoul.afterSpace str).head? = some '+' then 1
  else 0

/-- The longest run of decimal digits after the white space and the sign. -/
def stoul.digits (str : List Char) : List Char :=
  ((stoul.afterSpace str).drop (stoul.signLength str)).takeWhile Char.isDigit

/-- The library's `std::stoul( str, &pos )` with base 10, which calls `strtoul`:
leading white space is skipped, one `+` or `-` is accepted, then the longest
run of decimal digits is converted.  Without any digit it throws
`std::invalid_argument`; when the digits denote more than `ULONG_MAX` it throws
`std::out_of_range`; after a `-` the value is negated in `unsigned long`.  The
result is the value and `pos`, the number of characters processed. -/
def stoul (str : List Char) : Except Error (Nat × Nat) :=
  if (stoul.digits str).isEmpty then
    throw Error.stoulInvalidArgument
  else if digitsValue (stoul.digits str) > ULONG_MAX then
    throw Error.stoulOutOfRange
  else
    pure (
      if (stoul.afterSpace str).head? = some '-' then
        (ULONG_MAX + 1 - digitsValue (stoul.digits str)) % (ULONG_MAX + 1)
      else
        digitsValue (stoul.digits str),
      (str.takeWhile isspace).length + stoul.signLength str + (stoul.digits str).length)

/-- The library's `str.substr( pos, n )`: it throws `std::out_of_range` when
`pos > str.size()`. -/
def substr (str : List Char) (pos n : Nat) : Except Error (List Char) :=
  if pos > str.length then
    throw Error.substrOutOfRange
  else
    pure ((str.drop pos).take n)

/-- An input stream: the characters not yet extracted and the state bits
`eofbit` and `failbit` (`badbit`, a failure of the device, is not modelled). -/
structure IStream where
  rest : List Char
  eofbit : Bool
  failbit : Bool
deriving DecidableEq, Repr

namespace IStream

/-- A stream in the good state over the given characters (an `ifstream` that
was opened, or an `istringstream`). -/
def ofString (text : String) : IStream := ⟨text.data, false, false⟩

def good (input : IStream) : Bool := !input.eofbit && !input.failbit

def eof (input : IStream) : Bool := input.eofbit

end IStream

/-- The characters before the first `\n`, and what follows that `\n` (`none`
when there is no `\n`). -/
def splitLine : List Char → List Char × Option (List Char)
  | [] => ([], none)
  | c :: cs =>
    if c = '\n' then ([], some cs)
    else ((c :: (splitLine cs).1), (splitLine cs).2)

/-- The library's `std::getline( input, line )`.  When the stream is not good
at the call, `failbit` is set and `line` is left unchanged.  Otherwise `line`
is erased and characters are extracted into it up to a `\n`, which is extracted
and dropped; when the end of the input comes first, `eofbit` is set, and
`failbit` too when nothing was extracted. -/
def getline (input : IStream) (line : List Char) : IStream × List Char :=
  if !input.good then
    ({ input with failbit := true }, line)
  else
    match splitLine input.rest with
    | (l, some rest) => ({ input with rest := rest }, l)
    | (l, none) => ({ rest := [], eofbit := true, failbit := l.isEmpty }, l)

/-- The decimal `operator<<` for an `unsigned long`. -/
def decimal (n : Nat) : List Char := Nat.toDigits 10 n

/-- The decimal `operator<<` after `setw( width )` and `setfill( fill )`: the
digits are padded on the left up to `width` characters. -/
def decimalPadded (width : Nat) (fill : Char) (n : Nat) : List Char :=
  List.leftpad width fill (Nat.toDigits 10 n)

/-! ## CompareAndExtract and Fill -/

/-- The loop of `CompareAndExtract` over `i`, on the pairs `(format[i], text[i])`. -/
def CompareAndExtract.loop : List (Char × Char) → List Char → Bool × List Char
  | [], result => (true, result)
  | (f, t) :: rest, result =>
    if f = '*' then
      CompareAndExtract.loop rest (result ++ [t])
    else if f ≠ t then
      (false, result)
    else
      CompareAndExtract.loop rest result

/-- The function `CompareAndExtract( format, text, result )`: the returned
`bool` and the content of `result` at the return. -/
def CompareAndExtract (format text : List Char) : Bool × List Char :=
  let result := []
  if format.length ≠ text.length then
    (false, result)
  else
    CompareAndExtract.loop (format.zip text) result

/-- The loop of `Fill` over `i`: `done` is `result[0, i)`, the second argument
is `result[i, n)`, which still equals `format[i, n)`, the third is
`text[j, m)`. -/
def Fill.loop : List Char → List Char → List Char → Bool × List Char
  | done, [], text => (text.isEmpty, done)
  | done, c :: fs, text =>
    if c = '*' then
      match text with
      | [] => (false, done ++ c :: fs)
      | t :: ts => Fill.loop (done ++ [t]) fs ts
    else
      Fill.loop (done ++ [c]) fs text

/-- The function `Fill( format, text, result )`: the returned `bool` and the
content of `result` at the return. -/
def Fill (format text : List Char) : Bool × List Char :=
  Fill.loop [] format text

/-- The format of the second line of a record. -/
def timeFormat : List Char := "**:**:**,*** --> **:**:**,***".data

/-! ## ReadLine, ReadSubtitle, CSubtitles::Read -/

/-- The function `ReadLine( input, line )`: `getline`, then one trailing `\r`
is dropped. -/
def ReadLine (input : IStream) (line : List Char) : IStream × List Char :=
  let r := getline input line
  if r.2.getLast? = some '\r' then
    (r.1, r.2.dropLast)
  else
    r

/-- The loop `while( input.good() && line.empty() )` of `ReadSubtitle`; every
iteration on a good stream extracts a character or sets `eofbit`, so
`input.rest.length + 1` iterations always suffice (`skipEmptyLines_exit`,
`skipEmptyLines_fuel`). -/
def skipEmptyLines : Nat → IStream → List Char → IStream × List Char
  | 0, input, line => (input, line)
  | fuel + 1, input, line =>
    if input.good && line.isEmpty then
      skipEmptyLines fuel (ReadLine input line).1 (ReadLine input line).2
    else
      (input, line)

/-- The loop `while( input.good() )` of `ReadSubtitle` that collects the text;
the result is the stream and the text (`line` is not used after the loop).
Every iteration that does not leave the loop extracts a character or sets
`eofbit`, so `input.rest.length + 1` iterations always suffice
(`readText_fuel`). -/
def readText : Nat → IStream → List Char → List Char → IStream × List Char
  | 0, input, _, text => (input, text)
  | fuel + 1, input, line, text =>
    if input.good then
      if (ReadLine input line).2.isEmpty then
        ((ReadLine input line).1, text)
      else
        readText fuel (ReadLine input line).1 (ReadLine input line).2
          (text ++ ((ReadLine input line).2 ++ ['\n']))
    else
      (input, text)

/-- The function `ReadSubtitle( input, subtitle )`: the returned `bool`, the
stream and the subtitle at the return.  The `stoul` of the id line is inside
`try ... catch( exception& )`; the two `stoul` of the times are not. -/
def ReadSubtitle (input : IStream) (subtitle : CSubtitle) :
    Except Error (Bool × IStream × CSubtitle) :=
  let r := skipEmptyLines (input.rest.length + 1) input []
  let input := r.1
  let line := r.2
  if line.isEmpty then
    pure (false, input, subtitle)
  else
    match stoul line with
    | .error _ => pure (false, input, subtitle)
    | .ok (id, pos) =>
      if pos ≠ line.length || id = 0 then
        pure (false, input, subtitle)
      else if subtitle.Id ≠ id then
        pure (false, input, subtitle)
      else
        let r := ReadLine input line
        let input := r.1
        let line := r.2
        let c := CompareAndExtract timeFormat line
        let subTimes := c.2
        if !c.1 then
          pure (false, input, subtitle)
        else do
          let timeOfAppearing := (← stoul (← substr subTimes 0 9)).1
          let timeOfDisappearing := (← stoul (← substr subTimes 9 9)).1
          if ¬ (timeOfAppearing < timeOfDisappearing) then
            pure (false, input, subtitle)
          else
            let t := readText (input.rest.length + 1) input line []
            let input := t.1
            let text := t.2
            if text.isEmpty then
              pure (false, input, subtitle)
            else
              let subtitle := subtitle.SetTime
                (← CTimeRange.new timeOfAppearing timeOfDisappearing)
              let subtitle := subtitle.SetText ⟨text⟩
              pure (true, input, subtitle)

/-- The loop `while( input.good() )` of `CSubtitles::Read`: a new subtitle with
the next id is pushed and `ReadSubtitle` fills it in place; the loop is left
when `ReadSubtitle` returns `false`, the new subtitle still in the vector.  An
iteration that leaves the stream good has extracted a character, so
`input.rest.length + 1` iterations always suffice (`read_loop_fuel`). -/
def Read.loop : Nat → IStream → List CSubtitle → Except Error (IStream × List CSubtitle)
  | 0, input, subtitles => pure (input, subtitles)
  | fuel + 1, input, subtitles =>
    if input.good then do
      let r ← ReadSubtitle input (← CSubtitle.new (subtitles.length + 1))
      let subtitles := subtitles ++ [r.2.2]
      if !r.1 then
        pure (r.2.1, subtitles)
      else
        Read.loop fuel r.2.1 subtitles
    else
      pure (input, subtitles)

/-- The function `CSubtitles::Read( input )`: the returned `bool`, the stream
and the content of `subtitles` at the return. -/
def Read (input : IStream) : Except Error (Bool × IStream × List CSubtitle) := do
  let r ← Read.loop (input.rest.length + 1) input []
  let input := r.1
  let subtitles := r.2
  if subtitles.isEmpty then
    pure (false, input, subtitles)
  else
    let subtitles := subtitles.dropLast
    if !input.eof then
      pure (false, input, subtitles)
    else
      pure (true, input, subtitles)

/-! ## CSubtitles::Write -/

/-- The loop of `CSubtitles::Write`; the output stream is the list of the
characters written to it, `endl` writes `\n`. -/
def Write.loop : List CSubtitle → List Char → Bool × List Char
  | [], output => (true, output)
  | i :: rest, output =>
    let timeStream := decimalPadded 9 '0' i.Time.Begin ++ decimalPadded 9 '0' i.Time.End
    let f := Fill timeFormat timeStream
    let textTime := f.2
    if !f.1 then
      (false, output)
    else
      let output := output ++ decimal i.Id ++ ['\n']
      let output := output ++ textTime ++ ['\n']
      let output := output ++ i.Text.data ++ ['\n']
      Write.loop rest output

/-- The function `CSubtitles::Write( output )` on an empty output stream: the
returned `bool` and the characters written. -/
def Write (subtitles : List CSubtitle) : Bool × List Char :=
  Write.loop subtitles []

/-! ## Vocabulary of the specification -/

/-- Every record of the track satisfies the class invariant of `CTimeRange`. -/
def TrackValid (track : List CSubtitle) : Prop :=
  ∀ s ∈ track, s.time.Valid

instance (track : List CSubtitle) : Decidable (TrackValid track) :=
  inferInstanceAs (Decidable (∀ s ∈ track, s.time.Valid))

/-- An ordered, non-overlapping track: the range of every record is before the
range of its successor. -/
def Ordered : List CSubtitle → Prop
  | [] => True
  | [_] => True
  | s :: t :: rest => s.time.IsBefore t.time = true ∧ Ordered (t :: rest)

instance decidableOrdered : (track : List CSubtitle) → Decidable (Ordered track)
  | [] => isTrue trivial
  | [_] => isTrue trivial
  | s :: t :: rest =>
    match decidableOrdered (t :: rest) with
    | isTrue h =>
      if hb : s.time.IsBefore t.time = true then isTrue ⟨hb, h⟩
      else isFalse (fun hn => hb hn.1)
    | isFalse h => isFalse (fun hn => h hn.2)

/-- The ids of the list are replaced by `n`, `n + 1`, ... by position. -/
def renumberFrom : Nat → List CSubtitle → List CSubtitle
  | _, [] => []
  | n, s :: rest => { s with id := n } :: renumberFrom (n + 1) rest

/-- The record the spec calls `merged(a, b)`: range
`(min(a.begin, b.begin), max(a.end, b.end))`, text of `a` followed by the text
of `b`.  Its id is a placeholder, the output is renumbered by position. -/
def merged (a b : CSubtitle) : CSubtitle :=
  ⟨0, ⟨min a.time.beginTime b.time.beginTime, max a.time.endTime b.time.endTime⟩,
    a.text ++ b.text⟩

/-- The natural recursive merge of the spec, which drains whichever side is not
exhausted (written from the spec's words, not from the source). -/
def refMerge : List CSubtitle → List CSubtitle → List CSubtitle
  | [], ys => ys
  | xs, [] => xs
  | a :: as, b :: bs =>
    if a.time.HasIntersection b.time then
      merged a b :: refMerge as bs
    else if a.time.IsBefore b.time then
      a :: refMerge as (b :: bs)
    else
      b :: refMerge (a :: as) bs
termination_by xs ys => xs.length + ys.length

/-- No record of one track intersects two records (records with different
ranges) of the other track. -/
def NoDoubleIntersection (A B : List CSubtitle) : Prop :=
  (∀ a ∈ A, ∀ b ∈ B, ∀ b' ∈ B, a.time.HasIntersection b.time = true →
    a.time.HasIntersection b'.time = true → b.time = b'.time) ∧
  (∀ b ∈ B, ∀ a ∈ A, ∀ a' ∈ A, a.time.HasIntersection b.time = true →
    a'.time.HasIntersection b.time = true → a.time = a'.time)

instance (A B : List CSubtitle) : Decidable (NoDoubleIntersection A B) :=
  inferInstanceAs (Decidable (_ ∧ _))

/-- The time line `Write` emits for a record: the format filled with the
zero-padded begin and end. -/
def timeLine (r : CSubtitle) : List Char :=
  (Fill timeFormat (decimalPadded 9 '0' r.time.beginTime ++
    decimalPadded 9 '0' r.time.endTime)).2

/-- The characters `Write` emits for a record: the id line, the time line and
the text, each followed by the line terminator of `endl`. -/
def recordText (r : CSubtitle) : List Char :=
  decimal r.id ++ ['\n'] ++ timeLine r ++ ['\n'] ++ r.text.data ++ ['\n']

/-- The stream invariant: `failbit` is only set together with `eofbit`. -/
def IStream.FailAtEof (input : IStream) : Prop :=
  input.failbit = true → input.eofbit = true

/-- The text is a sequence of non-empty lines without `\n`, each followed by
`\n` (what `ReadSubtitle` builds). -/
def TextLines (text : List Char) : Prop :=
  ∃ lines : List (List Char), (∀ l ∈ lines, l ≠ [] ∧ '\n' ∉ l) ∧
    text = (lines.map (· ++ ['\n'])).flatten

/-- What `ReadSubtitle` guarantees of a record it accepted. -/
def RecordOK (r : CSubtitle) : Prop :=
  r.time.Valid ∧ r.text.data ≠ [] ∧ TextLines r.text.data ∧ 0 < r.id ∧ r.id ≤ ULONG_MAX

/-- The input has only blank lines: every line is empty or a single `\r`. -/
def blankOnly : List Char → Bool
  | [] => true
  | [c] => c = '\n' || c = '\r'
  | c :: d :: ds =>
    if c = '\n' then blankOnly (d :: ds)
    else c = '\r' && d = '\n' && blankOnly ds

/-- The records `acc` were accepted after `n` earlier ones: their ids go on
from `n + 1` and each is as `ReadSubtitle` leaves it. -/
def AcceptedAfter (n : Nat) (acc : List CSubtitle) : Prop :=
  acc.map (·.id) = List.range' (n + 1) acc.length ∧ ∀ r ∈ acc, RecordOK r

/-- A record that `Read` reads back as it is from what `Write` writes for it:
its id is a positive `unsigned long`, its range is valid and ends before
`10^9`, and its text is made of non-empty lines without `\n` and without a
trailing `\r`, each followed by `\n`. -/
def Rereadable (r : CSubtitle) : Prop :=
  0 < r.id ∧ r.id ≤ ULONG_MAX ∧ r.time.beginTime < r.time.endTime ∧
  r.time.endTime < 10 ^ 9 ∧
  ∃ lines : List (List Char), lines ≠ [] ∧
    (∀ l ∈ lines, l ≠ [] ∧ '\n' ∉ l ∧ l.getLast? ≠ some '\r') ∧
    r.text.data = (lines.map (· ++ ['\n'])).flatten

/-- Starting on the stream `input` with `n` records already in the track, the
successive calls of `ReadSubtitle` that the loop of `Read` makes (each on a
good stream, with a fresh record of id `n + 1`, `n + 2`, ...) accept the
records of `acc`, one after the other, and leave the stream `last`. -/
def AcceptedRun : IStream → Nat → List CSubtitle → IStream → Prop
  | input, _, [], last => last = input
  | input, n, r :: acc, last =>
    input.good = true ∧
    ∃ i1, ReadSubtitle input ⟨n + 1, ⟨0, 1⟩, ""⟩ = .ok (true, i1, r) ∧
      AcceptedRun i1 (n + 1) acc last

/-! ## CTimeRange: lemmas and claims -/

theorem CTimeRange.new_eq_ok {b e : Nat} (h : b < e) :
    CTimeRange.new b e = .ok ⟨b, e⟩ := by
  simp [CTimeRange.new, h, pure, Except.pure]

theorem CTimeRange.new_eq_error {b e : Nat} (h : e ≤ b) :
    CTimeRange.new b e = .error Error.beginNotLessThanEnd := by
  simp [CTimeRange.new, Nat.not_lt.mpr h, throw, throwThe, MonadExceptOf.throw]

theorem CTimeRange.hasIntersection_iff (a b : CTimeRange) :
    a.HasIntersection b = true ↔ b.beginTime < a.endTime ∧ a.beginTime < b.endTime := by
  simp [CTimeRange.HasIntersection, CTimeRange.IsBefore, CTimeRange.IsAfter]

theorem CTimeRange.union_eq_ok {a b : CTimeRange} (ha : a.Valid)
    (h : a.HasIntersection b = true) :
    a.Union b = .ok ⟨min a.beginTime b.beginTime, max a.endTime b.endTime⟩ := by
  unfold CTimeRange.Valid at ha
  have hlt : min a.beginTime b.beginTime < max a.endTime b.endTime := by
    have h1 : min a.beginTime b.beginTime ≤ a.beginTime := Nat.min_le_left _ _
    have h2 : a.endTime ≤ max a.endTime b.endTime := Nat.le_max_left _ _
    omega
  simp [CTimeRange.Union, h, CTimeRange.new_eq_ok hlt]

/-- C8: for valid ranges `a` and `b` exactly one of `a.HasIntersection(b)`,
`a.IsBefore(b)`, `a.IsAfter(b)` holds: the three cover every pair, `IsBefore`
and `IsAfter` never hold together, and `HasIntersection` holds iff neither of
the other two does. -/
theorem C8_exactly_one_of_three (a b : CTimeRange) (ha : a.Valid) (hb : b.Valid) :
    ((a.HasIntersection b = true ∧ a.IsBefore b = false ∧ a.IsAfter b = false) ∨
      (a.HasIntersection b = false ∧ a.IsBefore b = true ∧ a.IsAfter b = false) ∨
      (a.HasIntersection b = false ∧ a.IsBefore b = false ∧ a.IsAfter b = true)) ∧
    (a.HasIntersection b = true ∨ a.IsBefore b = true ∨ a.IsAfter b = true) ∧
    ¬ (a.IsBefore b = true ∧ a.IsAfter b = true) ∧
    (a.HasIntersection b = true ↔ (a.IsBefore b = false ∧ a.IsAfter b = false)) := by
  unfold CTimeRange.Valid at ha hb
  simp only [CTimeRange.HasIntersection, CTimeRange.IsBefore, CTimeRange.IsAfter,
    Bool.and_eq_true, Bool.not_eq_true', decide_eq_true_eq, decide_eq_false_iff_not,
    Bool.and_eq_false_iff, Bool.not_eq_false']
  by_cases h1 : a.endTime ≤ b.beginTime <;> by_cases h2 : b.endTime ≤ a.beginTime <;>
    simp [h1, h2]
  omega

theorem C8_exactly_one_of_three_witness :
    (CTimeRange.mk 1000 5000).Valid ∧ (CTimeRange.mk 3000 7000).Valid ∧
    (CTimeRange.mk 1000 5000).HasIntersection (CTimeRange.mk 3000 7000) = true ∧
    (CTimeRange.mk 1000 5000).IsBefore (CTimeRange.mk 3000 7000) = false ∧
    (CTimeRange.mk 1000 5000).IsAfter (CTimeRange.mk 3000 7000) = false ∧
    ¬ ((CTimeRange.mk 1000 5000).IsBefore (CTimeRange.mk 3000 7000) = true ∧
      (CTimeRange.mk 1000 5000).IsAfter (CTimeRange.mk 3000 7000) = true) :=
  ⟨by decide, by decide, by decide, by decide, by decide,
    (C8_exactly_one_of_three ⟨1000, 5000⟩ ⟨3000, 7000⟩ (by decide) (by decide)).2.2.1⟩

/-- C9: for valid ranges `a` and `b`, `a.Union(b)` throws iff `a` and `b` do not
intersect; when they intersect it returns the valid range
`(min(a.begin, b.begin), max(a.end, b.end))`, which contains `a` and `b` and is
contained in every range that contains both. -/
theorem C9_union_correct (a b : CTimeRange) (ha : a.Valid) (_hb : b.Valid) :
    ((∃ e, a.Union b = .error e) ↔ a.HasIntersection b = false) ∧
    (a.HasIntersection b = true →
      ∃ u, a.Union b = .ok u ∧
        u = ⟨min a.beginTime b.beginTime, max a.endTime b.endTime⟩ ∧
        u.Valid ∧ u.Contains a ∧ u.Contains b ∧
        ∀ c : CTimeRange, c.Contains a → c.Contains b → c.Contains u) := by
  constructor
  · cases h : a.HasIntersection b
    · simp [CTimeRange.Union, h, throw, throwThe, MonadExceptOf.throw]
    · simp [CTimeRange.union_eq_ok ha h]
  · intro h
    refine ⟨_, CTimeRange.union_eq_ok ha h, rfl, ?_, ?_, ?_, ?_⟩
    · unfold CTimeRange.Valid at *
      have h1 : min a.beginTime b.beginTime ≤ a.beginTime := Nat.min_le_left _ _
      have h2 : a.endTime ≤ max a.endTime b.endTime := Nat.le_max_left _ _
      show min a.beginTime b.beginTime < max a.endTime b.endTime
      omega
    · exact ⟨Nat.min_le_left _ _, Nat.le_max_left _ _⟩
    · exact ⟨Nat.min_le_right _ _, Nat.le_max_right _ _⟩
    · intro c hca hcb
      exact ⟨Nat.le_min.mpr ⟨hca.1, hcb.1⟩, Nat.max_le.mpr ⟨hca.2, hcb.2⟩⟩

theorem C9_union_correct_witness :
    (CTimeRange.mk 1000 5000).Valid ∧ (CTimeRange.mk 3000 7000).Valid ∧
    (CTimeRange.mk 1000 5000).HasIntersection (CTimeRange.mk 3000 7000) = true ∧
    ∃ u, (CTimeRange.mk 1000 5000).Union (CTimeRange.mk 3000 7000) = .ok u ∧
      u = ⟨min 1000 3000, max 5000 7000⟩ ∧
      u.Valid ∧ u.Contains ⟨1000, 5000⟩ ∧ u.Contains ⟨3000, 7000⟩ ∧
      ∀ c : CTimeRange, c.Contains ⟨1000, 5000⟩ → c.Contains ⟨3000, 7000⟩ → c.Contains u :=
  ⟨by decide, by decide, by decide,
    (C9_union_correct ⟨1000, 5000⟩ ⟨3000, 7000⟩ (by decide) (by decide)).2 (by decide)⟩

/-- C10: for all timestamps `b` and `e`, the constructor `CTimeRange(b, e)`
throws iff `b >= e`; when `b < e` it succeeds and the constructed range reports
`Begin() = b` and `End() = e`. -/
theorem C10_constructor (b e : Nat) :
    ((∃ err, CTimeRange.new b e = .error err) ↔ b ≥ e) ∧
    (b < e → ∃ r, CTimeRange.new b e = .ok r ∧ r.Begin = b ∧ r.End = e) := by
  constructor
  · by_cases h : b < e
    · simp [CTimeRange.new_eq_ok h, h]
    · have h' : e ≤ b := Nat.not_lt.mp h
      simp [CTimeRange.new_eq_error h', h']
  · intro h
    exact ⟨_, CTimeRange.new_eq_ok h, rfl, rfl⟩

/-! ## Merge: helper lemmas -/

theorem updateBack_append_singleton (v : List CSubtitle) (s : CSubtitle)
    (f : CSubtitle → CSubtitle) : updateBack (v ++ [s]) f = v ++ [f s] := by
  simp [updateBack]

theorem CSubtitle.new_eq (n : Nat) : CSubtitle.new n = .ok ⟨n, ⟨0, 1⟩, ""⟩ := by
  simp [CSubtitle.new, CTimeRange.new, pure, Except.pure, bind, Except.bind]

theorem mergeLoop_nil_left (i2 out : List CSubtitle) :
    mergeLoop [] i2 out = .ok ⟨[], i2, out⟩ := by
  simp [mergeLoop, pure, Except.pure]

theorem mergeLoop_nil_right (i1 out : List CSubtitle) :
    mergeLoop i1 [] out = .ok ⟨i1, [], out⟩ := by
  cases i1 <;> simp [mergeLoop, pure, Except.pure]

theorem mergeLoop_intersect {a b : CSubtitle} (as bs out : List CSubtitle)
    (ha : a.time.Valid) (h : a.time.HasIntersection b.time = true) :
    mergeLoop (a :: as) (b :: bs) out =
      mergeLoop as bs (out ++ [⟨out.length + 1,
        ⟨min a.time.beginTime b.time.beginTime, max a.time.endTime b.time.endTime⟩,
        a.text ++ b.text⟩]) := by
  rw [mergeLoop]
  simp [CSubtitle.new_eq, CSubtitle.Time, CSubtitle.Text, h, CTimeRange.union_eq_ok ha h,
    updateBack_append_singleton, CSubtitle.SetTime, CSubtitle.SetText, bind, Except.bind]

theorem mergeLoop_before {a b : CSubtitle} (as bs out : List CSubtitle)
    (h : a.time.HasIntersection b.time = false) (hb : a.time.IsBefore b.time = true) :
    mergeLoop (a :: as) (b :: bs) out =
      mergeLoop as (b :: bs) (out ++ [⟨out.length + 1, a.time, a.text⟩]) := by
  rw [mergeLoop]
  simp [CSubtitle.new_eq, CSubtitle.Time, CSubtitle.Text, h, hb,
    updateBack_append_singleton, CSubtitle.SetTime, CSubtitle.SetText, bind, Except.bind]

theorem mergeLoop_after {a b : CSubtitle} (as bs out : List CSubtitle)
    (h : a.time.HasIntersection b.time = false) (hb : a.time.IsBefore b.time = false) :
    mergeLoop (a :: as) (b :: bs) out =
      mergeLoop (a :: as) bs (out ++ [⟨out.length + 1, b.time, b.text⟩]) := by
  rw [mergeLoop]
  simp [CSubtitle.new_eq, CSubtitle.Time, CSubtitle.Text, h, hb,
    updateBack_append_singleton, CSubtitle.SetTime, CSubtitle.SetText, bind, Except.bind]

theorem drain_eq (rest out : List CSubtitle) :
    drain rest out = .ok (out ++ renumberFrom (out.length + 1) rest) := by
  induction rest generalizing out with
  | nil => simp [drain, renumberFrom, pure, Except.pure]
  | cons a rest ih =>
    simp [drain, CSubtitle.new_eq, updateBack_append_singleton, CSubtitle.SetTime,
      CSubtitle.SetText, CSubtitle.Time, CSubtitle.Text, bind, Except.bind, ih, renumberFrom]

theorem refMerge_nil_left (ys : List CSubtitle) : refMerge [] ys = ys := by
  simp [refMerge]

theorem refMerge_nil_right (xs : List CSubtitle) : refMerge xs [] = xs := by
  cases xs <;> simp [refMerge]

theorem refMerge_intersect {a b : CSubtitle} (as bs : List CSubtitle)
    (h : a.time.HasIntersection b.time = true) :
    refMerge (a :: as) (b :: bs) = merged a b :: refMerge as bs := by
  rw [refMerge]; simp [h]

theorem refMerge_before {a b : CSubtitle} (as bs : List CSubtitle)
    (h : a.time.HasIntersection b.time = false) (hb : a.time.IsBefore b.time = true) :
    refMerge (a :: as) (b :: bs) = a :: refMerge as (b :: bs) := by
  rw [refMerge]; simp [h, hb]

theorem refMerge_after {a b : CSubtitle} (as bs : List CSubtitle)
    (h : a.time.HasIntersection b.time = false) (hb : a.time.IsBefore b.time = false) :
    refMerge (a :: as) (b :: bs) = b :: refMerge (a :: as) bs := by
  rw [refMerge]; simp [h, hb]

theorem trackValid_cons {a : CSubtitle} {as : List CSubtitle} :
    TrackValid (a :: as) ↔ a.time.Valid ∧ TrackValid as := by
  simp [TrackValid]

/-- The first loop of `Merge` on valid tracks: it ends normally, with at least
one input exhausted, and what it has written followed by what is left is the
renumbered reference merge. -/
theorem mergeLoop_spec (A B out : List CSubtitle) (hA : TrackValid A) :
    ∃ c, mergeLoop A B out = .ok c ∧ (c.i1 = [] ∨ c.i2 = []) ∧
      c.subtitles ++ renumberFrom (c.subtitles.length + 1) (c.i1 ++ c.i2) =
        out ++ renumberFrom (out.length + 1) (refMerge A B) := by
  induction A generalizing B out with
  | nil => exact ⟨_, mergeLoop_nil_left B out, Or.inl rfl, by simp [refMerge_nil_left]⟩
  | cons a as ihA =>
    obtain ⟨ha, has⟩ := trackValid_cons.mp hA
    induction B generalizing out with
    | nil => exact ⟨_, mergeLoop_nil_right _ out, Or.inr rfl, by simp [refMerge_nil_right]⟩
    | cons b bs ihB =>
      cases h : a.time.HasIntersection b.time
      · cases hb : a.time.IsBefore b.time
        · obtain ⟨c, hc, hex, heq⟩ := ihB (out ++ [⟨out.length + 1, b.time, b.text⟩])
          refine ⟨c, by rw [mergeLoop_after as bs out h hb, hc], hex, ?_⟩
          rw [heq, refMerge_after as bs h hb]
          simp [renumberFrom]
        · obtain ⟨c, hc, hex, heq⟩ :=
            ihA (b :: bs) (out ++ [⟨out.length + 1, a.time, a.text⟩]) has
          refine ⟨c, by rw [mergeLoop_before as bs out h hb, hc], hex, ?_⟩
          rw [heq, refMerge_before as bs h hb]
          simp [renumberFrom]
      · obtain ⟨c, hc, hex, heq⟩ := ihA bs (out ++ [⟨out.length + 1,
          ⟨min a.time.beginTime b.time.beginTime, max a.time.endTime b.time.endTime⟩,
          a.text ++ b.text⟩]) has
        refine ⟨c, by rw [mergeLoop_intersect as bs out ha h, hc], hex, ?_⟩
        rw [heq, refMerge_intersect as bs h]
        simp [renumberFrom, merged]

/-- `Merge` on valid tracks returns `true` and appends the renumbered reference
merge to the output. -/
theorem Merge_eq (A B out : List CSubtitle) (hA : TrackValid A) :
    Merge A B out = .ok (true, out ++ renumberFrom (out.length + 1) (refMerge A B)) := by
  obtain ⟨c, hc, hex, heq⟩ := mergeLoop_spec A B out hA
  have hsel : (if c.i2 ≠ [] then c.i2 else c.i1) = c.i1 ++ c.i2 := by
    rcases hex with h | h
    · by_cases h2 : c.i2 = [] <;> simp [h, h2]
    · simp [h]
  simp only [Merge, hc, bind, Except.bind, hsel, drain_eq, heq, pure, Except.pure]

theorem renumberFrom_length (n : Nat) (l : List CSubtitle) :
    (renumberFrom n l).length = l.length := by
  induction l generalizing n with
  | nil => rfl
  | cons s rest ih => simp [renumberFrom, ih]

theorem renumberFrom_map_time (n : Nat) (l : List CSubtitle) :
    (renumberFrom n l).map (·.time) = l.map (·.time) := by
  induction l generalizing n with
  | nil => rfl
  | cons s rest ih => simp [renumberFrom, ih]

theorem renumberFrom_map_text (n : Nat) (l : List CSubtitle) :
    (renumberFrom n l).map (·.text) = l.map (·.text) := by
  induction l generalizing n with
  | nil => rfl
  | cons s rest ih => simp [renumberFrom, ih]

theorem renumberFrom_map_id (n : Nat) (l : List CSubtitle) :
    (renumberFrom n l).map (·.id) = List.range' n l.length := by
  induction l generalizing n with
  | nil => rfl
  | cons s rest ih => simp [renumberFrom, ih, List.range'_succ]

theorem not_hasIntersection_of_isBefore {a b : CTimeRange} (h : a.IsBefore b = true) :
    a.HasIntersection b = false := by
  simp [CTimeRange.HasIntersection, h]

/-- When every record of `A` is before the first record of `B`, the reference
merge is the concatenation. -/
theorem refMerge_eq_append (A B : List CSubtitle)
    (h : ∀ a ∈ A, ∀ b ∈ B.head?, a.time.IsBefore b.time = true) :
    refMerge A B = A ++ B := by
  induction A with
  | nil => simp [refMerge_nil_left]
  | cons a as ih =>
    cases B with
    | nil => simp [refMerge_nil_right]
    | cons b bs =>
      have hab : a.time.IsBefore b.time = true := h a (by simp) b (by simp)
      rw [refMerge_before as bs (not_hasIntersection_of_isBefore hab) hab,
        ih (fun x hx y hy => h x (List.mem_cons_of_mem _ hx) y hy)]
      rfl

/-- One step of the first loop, without any assumption on the records. -/
theorem mergeLoop_cons_cons (a b : CSubtitle) (as bs out : List CSubtitle) :
    mergeLoop (a :: as) (b :: bs) out =
      if a.time.HasIntersection b.time = true then
        match a.time.Union b.time with
        | .error e => .error e
        | .ok u => mergeLoop as bs (out ++ [⟨out.length + 1, u, a.text ++ b.text⟩])
      else if a.time.IsBefore b.time = true then
        mergeLoop as (b :: bs) (out ++ [⟨out.length + 1, a.time, a.text⟩])
      else
        mergeLoop (a :: as) bs (out ++ [⟨out.length + 1, b.time, b.text⟩]) := by
  rw [mergeLoop]
  simp only [CSubtitle.new_eq, CSubtitle.Time, CSubtitle.Text, bind, Except.bind,
    updateBack_append_singleton, CSubtitle.SetTime, CSubtitle.SetText]
  split
  · cases a.time.Union b.time <;> rfl
  · rfl

/-- When the first loop ends, one of the two inputs is exhausted. -/
theorem mergeLoop_exhausts (A B out : List CSubtitle) (c : Cursors)
    (h : mergeLoop A B out = .ok c) : c.i1 = [] ∨ c.i2 = [] := by
  induction A generalizing B out with
  | nil =>
    rw [mergeLoop_nil_left] at h
    cases h; exact Or.inl rfl
  | cons a as ihA =>
    induction B generalizing out with
    | nil =>
      rw [mergeLoop_nil_right] at h
      cases h; exact Or.inr rfl
    | cons b bs ihB =>
      rw [mergeLoop_cons_cons] at h
      split at h
      · cases hu : a.time.Union b.time with
        | error e => rw [hu] at h; cases h
        | ok u => rw [hu] at h; exact ihA _ _ h
      · split at h
        · exact ihA _ _ h
        · exact ihB _ h

theorem CTimeRange.contains_refl (r : CTimeRange) : r.Contains r :=
  ⟨Nat.le_refl _, Nat.le_refl _⟩

theorem exists_mem_renumberFrom (n : Nat) (l : List CSubtitle) (o : CSubtitle)
    (h : o ∈ l) : ∃ p ∈ renumberFrom n l, p.time = o.time ∧ p.text = o.text := by
  induction l generalizing n with
  | nil => cases h
  | cons s rest ih =>
    rcases List.mem_cons.mp h with rfl | h
    · exact ⟨_, List.mem_cons_self _ _, rfl, rfl⟩
    · obtain ⟨p, hp, ht, hx⟩ := ih (n + 1) h
      exact ⟨p, List.mem_cons_of_mem _ hp, ht, hx⟩

/-- Every record of the first track goes into a record of the reference merge:
its range is contained in the range of that record and its text starts the
text of that record. -/
theorem refMerge_covers_left (A B : List CSubtitle) :
    ∀ a ∈ A, ∃ o ∈ refMerge A B, o.time.Contains a.time ∧ ∃ t, o.text = a.text ++ t := by
  induction A generalizing B with
  | nil => intro a ha; cases ha
  | cons a as ihA =>
    induction B with
    | nil =>
      intro x hx
      rw [refMerge_nil_right]
      exact ⟨x, hx, CTimeRange.contains_refl _, "", by simp⟩
    | cons b bs ihB =>
      intro x hx
      cases h : a.time.HasIntersection b.time
      · cases hb : a.time.IsBefore b.time
        · rw [refMerge_after as bs h hb]
          obtain ⟨o, ho, hc⟩ := ihB x hx
          exact ⟨o, List.mem_cons_of_mem _ ho, hc⟩
        · rw [refMerge_before as bs h hb]
          rcases List.mem_cons.mp hx with rfl | hx
          · exact ⟨x, List.mem_cons_self _ _, CTimeRange.contains_refl _, "", by simp⟩
          · obtain ⟨o, ho, hc⟩ := ihA (b :: bs) x hx
            exact ⟨o, List.mem_cons_of_mem _ ho, hc⟩
      · rw [refMerge_intersect as bs h]
        rcases List.mem_cons.mp hx with rfl | hx
        · exact ⟨_, List.mem_cons_self _ _,
            ⟨Nat.min_le_left _ _, Nat.le_max_left _ _⟩, b.text, rfl⟩
        · obtain ⟨o, ho, hc⟩ := ihA bs x hx
          exact ⟨o, List.mem_cons_of_mem _ ho, hc⟩

/-- Every record of the second track goes into a record of the reference merge:
its range is contained in the range of that record and its text ends the text
of that record. -/
theorem refMerge_covers_right (A B : List CSubtitle) :
    ∀ b ∈ B, ∃ o ∈ refMerge A B, o.time.Contains b.time ∧ ∃ t, o.text = t ++ b.text := by
  induction A generalizing B with
  | nil =>
    intro x hx
    rw [refMerge_nil_left]
    exact ⟨x, hx, CTimeRange.contains_refl _, "", by simp⟩
  | cons a as ihA =>
    induction B with
    | nil => intro x hx; cases hx
    | cons b bs ihB =>
      intro x hx
      cases h : a.time.HasIntersection b.time
      · cases hb : a.time.IsBefore b.time
        · rw [refMerge_after as bs h hb]
          rcases List.mem_cons.mp hx with rfl | hx
          · exact ⟨x, List.mem_cons_self _ _, CTimeRange.contains_refl _, "", by simp⟩
          · obtain ⟨o, ho, hc⟩ := ihB x hx
            exact ⟨o, List.mem_cons_of_mem _ ho, hc⟩
        · rw [refMerge_before as bs h hb]
          obtain ⟨o, ho, hc⟩ := ihA (b :: bs) x hx
          exact ⟨o, List.mem_cons_of_mem _ ho, hc⟩
      · rw [refMerge_intersect as bs h]
        rcases List.mem_cons.mp hx with rfl | hx
        · exact ⟨_, List.mem_cons_self _ _,
            ⟨Nat.min_le_right _ _, Nat.le_max_right _ _⟩, a.text, rfl⟩
        · obtain ⟨o, ho, hc⟩ := ihA bs x hx
          exact ⟨o, List.mem_cons_of_mem _ ho, hc⟩

theorem CTimeRange.isBefore_iff (a b : CTimeRange) :
    a.IsBefore b = true ↔ a.endTime ≤ b.beginTime := by
  simp [CTimeRange.IsBefore]

theorem CTimeRange.hasIntersection_eq_false_iff (a b : CTimeRange) :
    a.HasIntersection b = false ↔ a.endTime ≤ b.beginTime ∨ b.endTime ≤ a.beginTime := by
  rw [← Bool.not_eq_true, CTimeRange.hasIntersection_iff]
  omega

theorem CTimeRange.isBefore_eq_false_iff (a b : CTimeRange) :
    a.IsBefore b = false ↔ b.beginTime < a.endTime := by
  rw [← Bool.not_eq_true, CTimeRange.isBefore_iff]
  omega

/-- The first record of the reference merge begins no earlier than the first
records of the two tracks. -/
theorem refMerge_head_ge (A B : List CSubtitle) (t : Nat)
    (hA : ∀ a ∈ A.head?, t ≤ a.time.beginTime) (hB : ∀ b ∈ B.head?, t ≤ b.time.beginTime) :
    ∀ o ∈ (refMerge A B).head?, t ≤ o.time.beginTime := by
  cases A with
  | nil => rw [refMerge_nil_left]; exact hB
  | cons a as =>
    cases B with
    | nil => rw [refMerge_nil_right]; exact hA
    | cons b bs =>
      have h1 : t ≤ a.time.beginTime := hA a rfl
      have h2 : t ≤ b.time.beginTime := hB b rfl
      intro o ho
      cases h : a.time.HasIntersection b.time
      · cases hb : a.time.IsBefore b.time
        · rw [refMerge_after as bs h hb] at ho
          cases ho; exact h2
        · rw [refMerge_before as bs h hb] at ho
          cases ho; exact h1
      · rw [refMerge_intersect as bs h] at ho
        cases ho
        exact Nat.le_min.mpr ⟨h1, h2⟩

theorem noDoubleIntersection_tail_left {a : CSubtitle} {as B : List CSubtitle}
    (h : NoDoubleIntersection (a :: as) B) : NoDoubleIntersection as B :=
  ⟨fun x hx => h.1 x (List.mem_cons_of_mem _ hx),
    fun y hy x hx z hz => h.2 y hy x (List.mem_cons_of_mem _ hx) z (List.mem_cons_of_mem _ hz)⟩

theorem noDoubleIntersection_tail_right {A : List CSubtitle} {b : CSubtitle}
    {bs : List CSubtitle} (h : NoDoubleIntersection A (b :: bs)) :
    NoDoubleIntersection A bs :=
  ⟨fun x hx y hy z hz => h.1 x hx y (List.mem_cons_of_mem _ hy) z (List.mem_cons_of_mem _ hz),
    fun y hy => h.2 y (List.mem_cons_of_mem _ hy)⟩

theorem ordered_iff_chain (track : List CSubtitle) :
    Ordered track ↔ List.Chain' (fun s t => s.time.IsBefore t.time = true) track := by
  induction track with
  | nil => simp [Ordered]
  | cons s rest ih =>
    cases rest with
    | nil => simp [Ordered]
    | cons t rest => rw [Ordered, ih, List.chain'_cons]

theorem ordered_cons {s : CSubtitle} {rest : List CSubtitle} :
    Ordered (s :: rest) ↔
      (∀ t ∈ rest.head?, s.time.IsBefore t.time = true) ∧ Ordered rest := by
  rw [ordered_iff_chain, ordered_iff_chain, List.chain'_cons']

/-- The reference merge of two ordered tracks in which no record intersects two
records of the other track is ordered. -/
theorem refMerge_ordered (A B : List CSubtitle) (hA : TrackValid A) (hB : TrackValid B)
    (oA : Ordered A) (oB : Ordered B) (hN : NoDoubleIntersection A B) :
    Ordered (refMerge A B) := by
  induction A generalizing B with
  | nil => rw [refMerge_nil_left]; exact oB
  | cons a as ihA =>
    obtain ⟨ha, has⟩ := trackValid_cons.mp hA
    obtain ⟨hah, oas⟩ := ordered_cons.mp oA
    induction B with
    | nil => rw [refMerge_nil_right]; exact oA
    | cons b bs ihB =>
      obtain ⟨hb, hbs⟩ := trackValid_cons.mp hB
      obtain ⟨hbh, obs⟩ := ordered_cons.mp oB
      unfold CTimeRange.Valid at ha hb
      cases h : a.time.HasIntersection b.time
      · cases hbf : a.time.IsBefore b.time
        · rw [refMerge_after as bs h hbf]
          refine ordered_cons.mpr ⟨?_, ihB hbs obs (noDoubleIntersection_tail_right hN)⟩
          intro o ho
          rw [CTimeRange.isBefore_iff]
          refine refMerge_head_ge (a :: as) bs _ ?_ ?_ o ho
          · intro x hx
            cases hx
            rw [CTimeRange.hasIntersection_eq_false_iff] at h
            rw [CTimeRange.isBefore_eq_false_iff] at hbf
            omega
          · intro y hy
            exact (CTimeRange.isBefore_iff _ _).mp (hbh y hy)
        · rw [refMerge_before as bs h hbf]
          refine ordered_cons.mpr
            ⟨?_, ihA (b :: bs) has hB oas oB (noDoubleIntersection_tail_left hN)⟩
          intro o ho
          rw [CTimeRange.isBefore_iff]
          refine refMerge_head_ge as (b :: bs) _ ?_ ?_ o ho
          · intro x hx
            exact (CTimeRange.isBefore_iff _ _).mp (hah x hx)
          · intro y hy
            cases hy
            exact (CTimeRange.isBefore_iff _ _).mp hbf
      · rw [refMerge_intersect as bs h]
        refine ordered_cons.mpr ⟨?_, ihA bs has hbs oas obs
          (noDoubleIntersection_tail_right (noDoubleIntersection_tail_left hN))⟩
        have hab := (CTimeRange.hasIntersection_iff _ _).mp h
        intro o ho
        rw [CTimeRange.isBefore_iff]
        refine refMerge_head_ge as bs _ ?_ ?_ o ho
        · intro x hx
          have hx' : x ∈ as := List.mem_of_mem_head? hx
          have h1 : a.time.endTime ≤ x.time.beginTime :=
            (CTimeRange.isBefore_iff _ _).mp (hah x hx)
          have hxv : x.time.beginTime < x.time.endTime := has x hx'
          show max a.time.endTime b.time.endTime ≤ x.time.beginTime
          refine Nat.max_le.mpr ⟨h1, ?_⟩
          by_contra hcon
          have hxb : x.time.HasIntersection b.time = true := by
            rw [CTimeRange.hasIntersection_iff]; omega
          have heq := hN.2 b (List.mem_cons_self _ _) a (List.mem_cons_self _ _) x
            (List.mem_cons_of_mem _ hx') h hxb
          rw [heq] at ha h1
          omega
        · intro y hy
          have hy' : y ∈ bs := List.mem_of_mem_head? hy
          have h1 : b.time.endTime ≤ y.time.beginTime :=
            (CTimeRange.isBefore_iff _ _).mp (hbh y hy)
          have hyv : y.time.beginTime < y.time.endTime := hbs y hy'
          show max a.time.endTime b.time.endTime ≤ y.time.beginTime
          refine Nat.max_le.mpr ⟨?_, h1⟩
          by_contra hcon
          have hay : a.time.HasIntersection y.time = true := by
            rw [CTimeRange.hasIntersection_iff]; omega
          have heq := hN.1 a (List.mem_cons_self _ _) b (List.mem_cons_self _ _) y
            (List.mem_cons_of_mem _ hy') h hay
          rw [heq] at hb h1
          omega

theorem renumberFrom_ordered (n : Nat) (l : List CSubtitle) (h : Ordered l) :
    Ordered (renumberFrom n l) := by
  rw [ordered_iff_chain] at *
  have hmap : List.Chain' (fun s t : CTimeRange => s.IsBefore t = true)
      ((renumberFrom n l).map (·.time)) := by
    rw [renumberFrom_map_time]
    exact (List.chain'_map _).mpr h
  exact (List.chain'_map _).mp hmap

/-- In an ordered track of valid ranges the first record is before every
later record. -/
theorem ordered_head_before_mem (a : CSubtitle) (as : List CSubtitle)
    (hv : TrackValid (a :: as)) (ho : Ordered (a :: as)) :
    ∀ x ∈ as, a.time.endTime ≤ x.time.beginTime := by
  induction as generalizing a with
  | nil => intro x hx; cases hx
  | cons x1 rest ih =>
    obtain ⟨h1, ho1⟩ := ordered_cons.mp ho
    have h1 : a.time.endTime ≤ x1.time.beginTime :=
      (CTimeRange.isBefore_iff _ _).mp (h1 x1 rfl)
    obtain ⟨-, hv1⟩ := trackValid_cons.mp hv
    have hx1 : x1.time.beginTime < x1.time.endTime := hv1 x1 (List.mem_cons_self _ _)
    intro x hx
    rcases List.mem_cons.mp hx with rfl | hx
    · exact h1
    · have := ih x1 hv1 ho1 x hx
      omega

/-- In an ordered track of valid ranges no record begins before the first. -/
theorem ordered_head_begin_le_mem (A : List CSubtitle) (hv : TrackValid A) (ho : Ordered A) :
    ∀ a ∈ A.head?, ∀ x ∈ A, a.time.beginTime ≤ x.time.beginTime := by
  cases A with
  | nil => intro a ha; cases ha
  | cons a as =>
    intro a' ha x hx
    cases ha
    rcases List.mem_cons.mp hx with rfl | hx
    · exact Nat.le_refl _
    · have h1 := ordered_head_before_mem a as hv ho x hx
      have h2 : a.time.beginTime < a.time.endTime := hv a (List.mem_cons_self _ _)
      omega

/-- The reference merge of valid tracks begins no later than its first track. -/
theorem refMerge_head_le_left (A B : List CSubtitle) (hA : TrackValid A) (hB : TrackValid B) :
    ∀ a ∈ A.head?, ∃ o ∈ (refMerge A B).head?, o.time.beginTime ≤ a.time.beginTime := by
  cases A with
  | nil => intro a ha; cases ha
  | cons a as =>
    intro a' ha
    cases ha
    cases B with
    | nil => exact ⟨a, by rw [refMerge_nil_right]; rfl, Nat.le_refl _⟩
    | cons b bs =>
      have hb : b.time.beginTime < b.time.endTime := hB b (List.mem_cons_self _ _)
      cases h : a.time.HasIntersection b.time
      · cases hbf : a.time.IsBefore b.time
        · refine ⟨b, by rw [refMerge_after as bs h hbf]; rfl, ?_⟩
          rw [CTimeRange.hasIntersection_eq_false_iff] at h
          rw [CTimeRange.isBefore_eq_false_iff] at hbf
          omega
        · exact ⟨a, by rw [refMerge_before as bs h hbf]; rfl, Nat.le_refl _⟩
      · exact ⟨merged a b, by rw [refMerge_intersect as bs h]; rfl, Nat.min_le_left _ _⟩

/-- The reference merge of valid tracks begins no later than its second track. -/
theorem refMerge_head_le_right (A B : List CSubtitle) (hA : TrackValid A) (hB : TrackValid B) :
    ∀ b ∈ B.head?, ∃ o ∈ (refMerge A B).head?, o.time.beginTime ≤ b.time.beginTime := by
  cases B with
  | nil => intro b hb; cases hb
  | cons b bs =>
    intro b' hb
    cases hb
    cases A with
    | nil => exact ⟨b, by rw [refMerge_nil_left]; rfl, Nat.le_refl _⟩
    | cons a as =>
      have ha : a.time.beginTime < a.time.endTime := hA a (List.mem_cons_self _ _)
      cases h : a.time.HasIntersection b.time
      · cases hbf : a.time.IsBefore b.time
        · exact ⟨b, by rw [refMerge_after as bs h hbf]; rfl, Nat.le_refl _⟩
        · refine ⟨a, by rw [refMerge_before as bs h hbf]; rfl, ?_⟩
          rw [CTimeRange.isBefore_iff] at hbf
          omega
      · exact ⟨merged a b, by rw [refMerge_intersect as bs h]; rfl, Nat.min_le_right _ _⟩

/-- A lower bound of the begin of the reference merge bounds every record of
the two ordered tracks. -/
theorem le_begin_of_le_refMerge_head (A B : List CSubtitle) (t : Nat)
    (hA : TrackValid A) (hB : TrackValid B) (oA : Ordered A) (oB : Ordered B)
    (h : ∀ o ∈ (refMerge A B).head?, t ≤ o.time.beginTime) :
    (∀ x ∈ A, t ≤ x.time.beginTime) ∧ (∀ y ∈ B, t ≤ y.time.beginTime) := by
  constructor
  · intro x hx
    cases A with
    | nil => cases hx
    | cons a as =>
      obtain ⟨o, ho, hle⟩ := refMerge_head_le_left (a :: as) B hA hB a rfl
      have h1 := h o ho
      have h2 := ordered_head_begin_le_mem (a :: as) hA oA a rfl x hx
      omega
  · intro y hy
    cases B with
    | nil => cases hy
    | cons b bs =>
      obtain ⟨o, ho, hle⟩ := refMerge_head_le_right A (b :: bs) hA hB b rfl
      have h1 := h o ho
      have h2 := ordered_head_begin_le_mem (b :: bs) hB oB b rfl y hy
      omega

/-- When the reference merge of two ordered tracks is ordered, no record
intersects two records of the other track. -/
theorem noDoubleIntersection_of_ordered (A B : List CSubtitle)
    (hA : TrackValid A) (hB : TrackValid B) (oA : Ordered A) (oB : Ordered B)
    (h : Ordered (refMerge A B)) : NoDoubleIntersection A B := by
  induction A generalizing B with
  | nil => exact ⟨fun a ha => (by cases ha), fun b _ a ha => (by cases ha)⟩
  | cons a as ihA =>
    obtain ⟨ha, has⟩ := trackValid_cons.mp hA
    obtain ⟨-, oas⟩ := ordered_cons.mp oA
    induction B with
    | nil => exact ⟨fun a _ b hb => (by cases hb), fun b hb => (by cases hb)⟩
    | cons b bs ihB =>
      obtain ⟨hb, hbs⟩ := trackValid_cons.mp hB
      obtain ⟨-, obs⟩ := ordered_cons.mp oB
      have hAm := ordered_head_before_mem a as hA oA
      have hBm := ordered_head_before_mem b bs hB oB
      unfold CTimeRange.Valid at ha hb
      cases hi : a.time.HasIntersection b.time
      · cases hbf : a.time.IsBefore b.time
        · -- `b` is before `a`, hence before every record of `A`
          rw [refMerge_after as bs hi hbf] at h
          obtain ⟨ih1, ih2⟩ := ihB hbs obs (ordered_cons.mp h).2
          rw [CTimeRange.hasIntersection_eq_false_iff] at hi
          rw [CTimeRange.isBefore_eq_false_iff] at hbf
          have hnot : ∀ x ∈ a :: as, x.time.HasIntersection b.time = true → False := by
            intro x hx hxb
            rw [CTimeRange.hasIntersection_iff] at hxb
            rcases List.mem_cons.mp hx with rfl | hx
            · omega
            · have := hAm x hx
              omega
          constructor
          · intro x hx y hy y' hy' hxy hxy'
            rcases List.mem_cons.mp hy with rfl | hy
            · exact absurd hxy (fun hc => hnot x hx hc)
            · rcases List.mem_cons.mp hy' with rfl | hy'
              · exact absurd hxy' (fun hc => hnot x hx hc)
              · exact ih1 x hx y hy y' hy' hxy hxy'
          · intro y hy x hx x' hx' hxy hxy'
            rcases List.mem_cons.mp hy with rfl | hy
            · exact absurd hxy (fun hc => hnot x hx hc)
            · exact ih2 y hy x hx x' hx' hxy hxy'
        · -- `a` is before `b`, hence before every record of `B`
          rw [refMerge_before as bs hi hbf] at h
          obtain ⟨ih1, ih2⟩ := ihA (b :: bs) has hB oas oB (ordered_cons.mp h).2
          rw [CTimeRange.isBefore_iff] at hbf
          have hnot : ∀ y ∈ b :: bs, a.time.HasIntersection y.time = true → False := by
            intro y hy hay
            rw [CTimeRange.hasIntersection_iff] at hay
            rcases List.mem_cons.mp hy with rfl | hy
            · omega
            · have := hBm y hy
              omega
          constructor
          · intro x hx y hy y' hy' hxy hxy'
            rcases List.mem_cons.mp hx with rfl | hx
            · exact absurd hxy (fun hc => hnot y hy hc)
            · exact ih1 x hx y hy y' hy' hxy hxy'
          · intro y hy x hx x' hx' hxy hxy'
            rcases List.mem_cons.mp hx with rfl | hx
            · exact absurd hxy (fun hc => hnot y hy hc)
            · rcases List.mem_cons.mp hx' with rfl | hx'
              · exact absurd hxy' (fun hc => hnot y hy hc)
              · exact ih2 y hy x hx x' hx' hxy hxy'
      · -- `a` and `b` are merged: the merged range is before the rest
        rw [refMerge_intersect as bs hi] at h
        obtain ⟨hhead, hrest⟩ := ordered_cons.mp h
        obtain ⟨ih1, ih2⟩ := ihA bs has hbs oas obs hrest
        have hbound := le_begin_of_le_refMerge_head as bs
          (max a.time.endTime b.time.endTime) has hbs oas obs
          (fun o ho => (CTimeRange.isBefore_iff _ _).mp (hhead o ho))
        have hnotA : ∀ x ∈ as, x.time.HasIntersection b.time = true → False := by
          intro x hx hxb
          rw [CTimeRange.hasIntersection_iff] at hxb
          have h1 := hbound.1 x hx
          have h2 : b.time.endTime ≤ max a.time.endTime b.time.endTime := Nat.le_max_right _ _
          omega
        have hnotB : ∀ y ∈ bs, a.time.HasIntersection y.time = true → False := by
          intro y hy hay
          rw [CTimeRange.hasIntersection_iff] at hay
          have h1 := hbound.2 y hy
          have h2 : a.time.endTime ≤ max a.time.endTime b.time.endTime := Nat.le_max_left _ _
          omega
        constructor
        · intro x hx y hy y' hy' hxy hxy'
          rcases List.mem_cons.mp hx with rfl | hx
          · rcases List.mem_cons.mp hy with rfl | hy
            · rcases List.mem_cons.mp hy' with rfl | hy'
              · rfl
              · exact absurd hxy' (fun hc => hnotB y' hy' hc)
            · exact absurd hxy (fun hc => hnotB y hy hc)
          · rcases List.mem_cons.mp hy with rfl | hy
            · exact absurd hxy (fun hc => hnotA x hx hc)
            · rcases List.mem_cons.mp hy' with rfl | hy'
              · exact absurd hxy' (fun hc => hnotA x hx hc)
              · exact ih1 x hx y hy y' hy' hxy hxy'
        · intro y hy x hx x' hx' hxy hxy'
          rcases List.mem_cons.mp hy with rfl | hy
          · rcases List.mem_cons.mp hx with rfl | hx
            · rcases List.mem_cons.mp hx' with rfl | hx'
              · rfl
              · exact absurd hxy' (fun hc => hnotA x' hx' hc)
            · exact absurd hxy (fun hc => hnotA x hx hc)
          · rcases List.mem_cons.mp hx with rfl | hx
            · exact absurd hxy (fun hc => hnotB y hy hc)
            · rcases List.mem_cons.mp hx' with rfl | hx'
              · exact absurd hxy' (fun hc => hnotB y hy hc)
              · exact ih2 y hy x hx x' hx' hxy hxy'

theorem ordered_of_renumberFrom_ordered (n : Nat) (l : List CSubtitle)
    (h : Ordered (renumberFrom n l)) : Ordered l := by
  rw [ordered_iff_chain] at *
  have hmap : List.Chain' (fun s t : CTimeRange => s.IsBefore t = true)
      ((renumberFrom n l).map (·.time)) := (List.chain'_map _).mpr h
  rw [renumberFrom_map_time] at hmap
  exact (List.chain'_map _).mp hmap

theorem ids_push (out : List CSubtitle) (t : CTimeRange) (x : String)
    (hid : out.map (·.id) = List.range' 1 out.length) :
    (out ++ [CSubtitle.mk (out.length + 1) t x]).map (·.id) =
      List.range' 1 (out ++ [CSubtitle.mk (out.length + 1) t x]).length := by
  simp [hid, List.range'_1_concat, Nat.add_comm]

/-- The first loop keeps the ids of the output vector equal to `1, 2, ...` by
position, whatever the records of the inputs are. -/
theorem mergeLoop_ids (A B out : List CSubtitle) (c : Cursors)
    (h : mergeLoop A B out = .ok c)
    (hid : out.map (·.id) = List.range' 1 out.length) :
    c.subtitles.map (·.id) = List.range' 1 c.subtitles.length := by
  induction A generalizing B out with
  | nil =>
    rw [mergeLoop_nil_left] at h
    cases h; exact hid
  | cons a as ihA =>
    induction B generalizing out with
    | nil =>
      rw [mergeLoop_nil_right] at h
      cases h; exact hid
    | cons b bs ihB =>
      rw [mergeLoop_cons_cons] at h
      split at h
      · cases hu : a.time.Union b.time with
        | error e => rw [hu] at h; cases h
        | ok u => rw [hu] at h; exact ihA _ _ h (ids_push _ _ _ hid)
      · split at h
        · exact ihA _ _ h (ids_push _ _ _ hid)
        · exact ihB _ h (ids_push _ _ _ hid)

/-- Whenever `Merge` returns, the ids of the output it was given being
`1, 2, ...` by position, the ids of its output are `1, 2, ...` by position. -/
theorem Merge_ids (A B out0 out : List CSubtitle) (r : Bool)
    (h : Merge A B out0 = .ok (r, out))
    (hid : out0.map (·.id) = List.range' 1 out0.length) :
    out.map (·.id) = List.range' 1 out.length := by
  unfold Merge at h
  cases hc : mergeLoop A B out0 with
  | error e => simp [hc, bind, Except.bind] at h
  | ok c =>
    have hcid := mergeLoop_ids A B out0 c hc hid
    simp only [hc, bind, Except.bind, drain_eq, pure, Except.pure, Except.ok.injEq,
      Prod.mk.injEq] at h
    rw [← h.2]
    simp only [List.map_append, hcid, renumberFrom_map_id, List.length_append,
      renumberFrom_length]
    have happ := List.range'_append_1 1 c.subtitles.length
      (if c.i2 ≠ [] then c.i2 else c.i1).length
    rw [Nat.add_comm 1, Nat.add_comm _ c.subtitles.length] at happ
    exact happ

/-! ## Merge: claims -/

/-- C1: when the first records `a` of `A` and `b` of `B` (tracks of valid
ranges) intersect, the first record `Merge(A, B)` appends to an empty output
has id 1, range `(min(a.begin, b.begin), max(a.end, b.end))` and text `a.text`
followed by `b.text`, whichever of the two begins earlier; for `A = [a]`,
`B = [b]` the output is exactly that record. -/
theorem C1_intersecting_heads (a b : CSubtitle) (as bs : List CSubtitle)
    (hA : TrackValid (a :: as)) (_hB : TrackValid (b :: bs))
    (h : a.time.HasIntersection b.time = true) :
    (∃ rest, Merge (a :: as) (b :: bs) [] = .ok (true,
      ⟨1, ⟨min a.time.beginTime b.time.beginTime, max a.time.endTime b.time.endTime⟩,
        a.text ++ b.text⟩ :: rest)) ∧
    Merge [a] [b] [] = .ok (true,
      [⟨1, ⟨min a.time.beginTime b.time.beginTime, max a.time.endTime b.time.endTime⟩,
        a.text ++ b.text⟩]) := by
  have ha : TrackValid [a] := fun s hs => hA s (by simp at hs; simp [hs])
  constructor
  · refine ⟨renumberFrom 2 (refMerge as bs), ?_⟩
    rw [Merge_eq _ _ _ hA, refMerge_intersect as bs h]
    simp [renumberFrom, merged]
  · rw [Merge_eq _ _ _ ha, refMerge_intersect [] [] h]
    simp [renumberFrom, merged, refMerge_nil_left]

theorem C1_intersecting_heads_witness :
    TrackValid [⟨1, ⟨1000, 5000⟩, "A"⟩] ∧ TrackValid [⟨1, ⟨3000, 7000⟩, "B"⟩] ∧
    (CTimeRange.mk 1000 5000).HasIntersection ⟨3000, 7000⟩ = true ∧
    Merge [⟨1, ⟨1000, 5000⟩, "A"⟩] [⟨1, ⟨3000, 7000⟩, "B"⟩] [] =
      .ok (true, [⟨1, ⟨1000, 7000⟩, "AB"⟩]) :=
  ⟨by decide, by decide, by decide,
    (C1_intersecting_heads ⟨1, ⟨1000, 5000⟩, "A"⟩ ⟨1, ⟨3000, 7000⟩, "B"⟩ [] []
      (by decide) (by decide) (by decide)).2⟩

/-- C2: when every record of `A` is before the first record of `B`
(`a.end <= b.begin`), `Merge(A, B)` into an empty output yields the records of
`A` in order followed by the records of `B` in order, ranges and texts
unchanged, with ids `1 .. |A| + |B|`. -/
theorem C2_before_concatenation (A B : List CSubtitle)
    (hA : TrackValid A) (_hB : TrackValid B)
    (h : ∀ a ∈ A, ∀ b ∈ B.head?, a.time.endTime ≤ b.time.beginTime) :
    ∃ out, Merge A B [] = .ok (true, out) ∧
      out = renumberFrom 1 (A ++ B) ∧
      out.map (·.time) = (A ++ B).map (·.time) ∧
      out.map (·.text) = (A ++ B).map (·.text) ∧
      out.map (·.id) = List.range' 1 (A.length + B.length) := by
  have h' : ∀ a ∈ A, ∀ b ∈ B.head?, a.time.IsBefore b.time = true := by
    intro a ha b hb
    simpa [CTimeRange.IsBefore] using h a ha b hb
  refine ⟨renumberFrom 1 (A ++ B), ?_, rfl, renumberFrom_map_time _ _,
    renumberFrom_map_text _ _, ?_⟩
  · rw [Merge_eq _ _ _ hA, refMerge_eq_append A B h']
    rfl
  · rw [renumberFrom_map_id, List.length_append]

theorem C2_before_concatenation_witness :
    TrackValid [⟨1, ⟨1000, 2000⟩, "Hi"⟩] ∧ TrackValid [⟨1, ⟨5000, 6000⟩, "Bye"⟩] ∧
    (∀ a ∈ [CSubtitle.mk 1 ⟨1000, 2000⟩ "Hi"], ∀ b ∈ [CSubtitle.mk 1 ⟨5000, 6000⟩ "Bye"].head?,
      a.time.endTime ≤ b.time.beginTime) ∧
    Merge [⟨1, ⟨1000, 2000⟩, "Hi"⟩] [⟨1, ⟨5000, 6000⟩, "Bye"⟩] [] =
      .ok (true, [⟨1, ⟨1000, 2000⟩, "Hi"⟩, ⟨2, ⟨5000, 6000⟩, "Bye"⟩]) := by
  refine ⟨by decide, by decide, by decide, ?_⟩
  obtain ⟨out, hm, ho, -⟩ := C2_before_concatenation
    [⟨1, ⟨1000, 2000⟩, "Hi"⟩] [⟨1, ⟨5000, 6000⟩, "Bye"⟩] (by decide) (by decide) (by decide)
  rw [hm, ho]
  rfl

/-- C3: on tracks of valid ranges, `Merge(A, B)` into an empty output returns
the natural recursive merge `refMerge A B` (which drains whichever side is not
exhausted) with the ids renumbered `1 .. n` by position; in particular, when
`A` has three records and `B` one record that intersects the first record of
`A`, the output is `[merged(A1, B1), A2, A3]`. -/
theorem C3_merge_eq_refMerge (A B : List CSubtitle)
    (hA : TrackValid A) (_hB : TrackValid B) :
    Merge A B [] = .ok (true, renumberFrom 1 (refMerge A B)) ∧
    ∀ a1 a2 a3 b1 : CSubtitle, A = [a1, a2, a3] → B = [b1] →
      a1.time.HasIntersection b1.time = true →
      Merge A B [] = .ok (true,
        [⟨1, ⟨min a1.time.beginTime b1.time.beginTime, max a1.time.endTime b1.time.endTime⟩,
            a1.text ++ b1.text⟩,
          ⟨2, a2.time, a2.text⟩, ⟨3, a3.time, a3.text⟩]) := by
  have hm : Merge A B [] = .ok (true, renumberFrom 1 (refMerge A B)) := by
    rw [Merge_eq _ _ _ hA]
    rfl
  refine ⟨hm, ?_⟩
  intro a1 a2 a3 b1 hA3 hB1 h
  rw [hm, hA3, hB1, refMerge_intersect _ _ h, refMerge_nil_right]
  rfl

theorem C3_merge_eq_refMerge_witness :
    TrackValid [⟨1, ⟨1000, 5000⟩, "A1"⟩, ⟨2, ⟨6000, 7000⟩, "A2"⟩, ⟨3, ⟨8000, 9000⟩, "A3"⟩] ∧
    TrackValid [⟨1, ⟨3000, 5500⟩, "B1"⟩] ∧
    Merge [⟨1, ⟨1000, 5000⟩, "A1"⟩, ⟨2, ⟨6000, 7000⟩, "A2"⟩, ⟨3, ⟨8000, 9000⟩, "A3"⟩]
        [⟨1, ⟨3000, 5500⟩, "B1"⟩] [] =
      .ok (true, [⟨1, ⟨1000, 5500⟩, "A1B1"⟩, ⟨2, ⟨6000, 7000⟩, "A2"⟩,
        ⟨3, ⟨8000, 9000⟩, "A3"⟩]) :=
  ⟨by decide, by decide,
    (C3_merge_eq_refMerge _ _ (by decide) (by decide)).2 _ _ _ _ rfl rfl (by decide)⟩

/-- C4, the claim refuted: on no input does the first loop of `Merge` end with
records left in both tracks, so the tail step never has leftover records of `A`
to discard. -/
theorem C4_no_leftover_in_both :
    ¬ ∃ A B out : List CSubtitle, ∃ c : Cursors,
      mergeLoop A B out = .ok c ∧ c.i2 ≠ [] ∧ c.i1 ≠ [] := by
  rintro ⟨A, B, out, c, hc, h2, h1⟩
  rcases mergeLoop_exhausts A B out c hc with h | h
  · exact h1 h
  · exact h2 h

/-- C4, amended: on tracks of valid ranges the first loop of `Merge` ends with
at least one track exhausted, so when `B` still has records `A` has none and
the tail step discards nothing: every record of `A` and of `B` goes into a
record of the output, whose range contains its range and whose text starts
with its text (for `A`) or ends with its text (for `B`). -/
theorem C4_tail_discards_nothing (A B : List CSubtitle)
    (hA : TrackValid A) (_hB : TrackValid B) :
    ∃ c out, mergeLoop A B [] = .ok c ∧ (c.i2 ≠ [] → c.i1 = []) ∧
      Merge A B [] = .ok (true, out) ∧
      (∀ a ∈ A, ∃ o ∈ out, o.time.Contains a.time ∧ ∃ t, o.text = a.text ++ t) ∧
      (∀ b ∈ B, ∃ o ∈ out, o.time.Contains b.time ∧ ∃ t, o.text = t ++ b.text) := by
  obtain ⟨c, hc, hex, -⟩ := mergeLoop_spec A B [] hA
  refine ⟨c, _, hc, ?_, Merge_eq A B [] hA, ?_, ?_⟩
  · intro h2
    rcases hex with h | h
    · exact h
    · exact absurd h h2
  · intro a ha
    obtain ⟨o, ho, hct, t, ht⟩ := refMerge_covers_left A B a ha
    obtain ⟨p, hp, hpt, hpx⟩ := exists_mem_renumberFrom 1 _ o ho
    exact ⟨p, by simpa using hp, hpt ▸ hct, t, hpx ▸ ht⟩
  · intro b hb
    obtain ⟨o, ho, hct, t, ht⟩ := refMerge_covers_right A B b hb
    obtain ⟨p, hp, hpt, hpx⟩ := exists_mem_renumberFrom 1 _ o ho
    exact ⟨p, by simpa using hp, hpt ▸ hct, t, hpx ▸ ht⟩

theorem C4_tail_discards_nothing_witness :
    TrackValid [⟨1, ⟨1000, 5000⟩, "A1"⟩, ⟨2, ⟨6000, 7000⟩, "A2"⟩] ∧
    TrackValid [⟨1, ⟨3000, 5500⟩, "B1"⟩, ⟨2, ⟨8000, 9000⟩, "B2"⟩] ∧
    ∃ c out,
      mergeLoop [⟨1, ⟨1000, 5000⟩, "A1"⟩, ⟨2, ⟨6000, 7000⟩, "A2"⟩]
        [⟨1, ⟨3000, 5500⟩, "B1"⟩, ⟨2, ⟨8000, 9000⟩, "B2"⟩] [] = .ok c ∧
      (c.i2 ≠ [] → c.i1 = []) ∧
      Merge [⟨1, ⟨1000, 5000⟩, "A1"⟩, ⟨2, ⟨6000, 7000⟩, "A2"⟩]
        [⟨1, ⟨3000, 5500⟩, "B1"⟩, ⟨2, ⟨8000, 9000⟩, "B2"⟩] [] = .ok (true, out) ∧
      (∀ a ∈ [CSubtitle.mk 1 ⟨1000, 5000⟩ "A1", ⟨2, ⟨6000, 7000⟩, "A2"⟩],
        ∃ o ∈ out, o.time.Contains a.time ∧ ∃ t, o.text = a.text ++ t) ∧
      (∀ b ∈ [CSubtitle.mk 1 ⟨3000, 5500⟩ "B1", ⟨2, ⟨8000, 9000⟩, "B2"⟩],
        ∃ o ∈ out, o.time.Contains b.time ∧ ∃ t, o.text = t ++ b.text) :=
  ⟨by decide, by decide, C4_tail_discards_nothing _ _ (by decide) (by decide)⟩

/-- C5: for all tracks `A` and `B`, whatever ids (and ranges) their records
carry, whenever `Merge(A, B)` into an empty output returns, the record at
position `i + 1` (index `i`) of its output has id `i + 1`: the ids are
`1, 2, ..., n` by output position; and for tracks of valid ranges `Merge` does
return. -/
theorem C5_ids_by_position (A B : List CSubtitle) :
    (∀ (r : Bool) (out : List CSubtitle), Merge A B [] = .ok (r, out) →
      (∀ (i : Nat) (h : i < out.length), out[i].id = i + 1) ∧
      out.map (·.id) = List.range' 1 out.length) ∧
    (TrackValid A → TrackValid B → ∃ out, Merge A B [] = .ok (true, out)) := by
  constructor
  · intro r out h
    have hid := Merge_ids A B [] out r h rfl
    refine ⟨?_, hid⟩
    intro i hi
    have h1 : (out.map (·.id))[i]? = (List.range' 1 out.length)[i]? := by rw [hid]
    rw [List.getElem?_map, List.getElem?_eq_getElem hi,
      List.getElem?_eq_getElem (by simpa using hi)] at h1
    simp only [Option.map_some', Option.some.injEq, List.getElem_range'] at h1
    omega
  · intro hA _
    exact ⟨_, Merge_eq A B [] hA⟩

theorem C5_ids_by_position_witness :
    Merge [⟨7, ⟨1000, 2000⟩, "Hi"⟩, ⟨9, ⟨3000, 4000⟩, "Ho"⟩] [⟨42, ⟨5000, 6000⟩, "Bye"⟩] [] =
      .ok (true, [⟨1, ⟨1000, 2000⟩, "Hi"⟩, ⟨2, ⟨3000, 4000⟩, "Ho"⟩,
        ⟨3, ⟨5000, 6000⟩, "Bye"⟩]) ∧
    List.map (·.id) [CSubtitle.mk 1 ⟨1000, 2000⟩ "Hi", ⟨2, ⟨3000, 4000⟩, "Ho"⟩,
        ⟨3, ⟨5000, 6000⟩, "Bye"⟩] = List.range' 1 3 := by
  have hm : Merge [⟨7, ⟨1000, 2000⟩, "Hi"⟩, ⟨9, ⟨3000, 4000⟩, "Ho"⟩]
      [⟨42, ⟨5000, 6000⟩, "Bye"⟩] [] =
      .ok (true, [⟨1, ⟨1000, 2000⟩, "Hi"⟩, ⟨2, ⟨3000, 4000⟩, "Ho"⟩,
        ⟨3, ⟨5000, 6000⟩, "Bye"⟩]) := by
    simp [Merge, mergeLoop_cons_cons, mergeLoop_nil_left, drain_eq, renumberFrom,
      CTimeRange.HasIntersection, CTimeRange.IsBefore, CTimeRange.IsAfter,
      bind, Except.bind, pure, Except.pure]
  exact ⟨hm, ((C5_ids_by_position _ _).1 true _ hm).2⟩

/-- C6: on tracks of valid ranges `Merge` returns `true` and raises neither
exception, whatever the output vector holds at the call: `Union` is only called
on intersecting ranges and the range it constructs has `begin < end`. -/
theorem C6_merge_never_fails (A B out0 : List CSubtitle)
    (hA : TrackValid A) (_hB : TrackValid B) :
    (∃ out, Merge A B out0 = .ok (true, out)) ∧
    Merge A B out0 ≠ .error Error.noIntersection ∧
    Merge A B out0 ≠ .error Error.beginNotLessThanEnd := by
  rw [Merge_eq A B out0 hA]
  exact ⟨⟨_, rfl⟩, by simp, by simp⟩

theorem C6_merge_never_fails_witness :
    TrackValid [⟨1, ⟨1000, 5000⟩, "A"⟩] ∧ TrackValid [⟨1, ⟨3000, 7000⟩, "B"⟩] ∧
    (∃ out, Merge [⟨1, ⟨1000, 5000⟩, "A"⟩] [⟨1, ⟨3000, 7000⟩, "B"⟩] [] = .ok (true, out)) ∧
    Merge [⟨1, ⟨1000, 5000⟩, "A"⟩] [⟨1, ⟨3000, 7000⟩, "B"⟩] [] ≠ .error Error.noIntersection ∧
    Merge [⟨1, ⟨1000, 5000⟩, "A"⟩] [⟨1, ⟨3000, 7000⟩, "B"⟩] [] ≠
      .error Error.beginNotLessThanEnd :=
  ⟨by decide, by decide, C6_merge_never_fails _ _ [] (by decide) (by decide)⟩

/-- C7, the claim refuted: `A = [1000..9000]` and `B = [2000..3000, 4000..5000]`
are ordered, non-overlapping tracks, and the output of `Merge(A, B)` is
`[1000..9000, 4000..5000]`, whose first range is not before the second. -/
theorem C7_output_not_ordered :
    Ordered [⟨1, ⟨1000, 9000⟩, "A"⟩] ∧
    Ordered [⟨1, ⟨2000, 3000⟩, "B1"⟩, ⟨2, ⟨4000, 5000⟩, "B2"⟩] ∧
    Merge [⟨1, ⟨1000, 9000⟩, "A"⟩] [⟨1, ⟨2000, 3000⟩, "B1"⟩, ⟨2, ⟨4000, 5000⟩, "B2"⟩] [] =
      .ok (true, [⟨1, ⟨1000, 9000⟩, "AB1"⟩, ⟨2, ⟨4000, 5000⟩, "B2"⟩]) ∧
    ¬ Ordered [⟨1, ⟨1000, 9000⟩, "AB1"⟩, ⟨2, ⟨4000, 5000⟩, "B2"⟩] := by
  refine ⟨by decide, by decide, ?_, by decide⟩
  simp [Merge, mergeLoop_cons_cons, mergeLoop_nil_left, drain_eq, renumberFrom,
    CTimeRange.HasIntersection, CTimeRange.IsBefore,
    CTimeRange.IsAfter, CTimeRange.Union, CTimeRange.new, CSubtitle.SetTime,
    CSubtitle.SetText, CSubtitle.Time, CSubtitle.Text, bind, Except.bind, pure, Except.pure]

/-- C7, amended: for tracks `A` and `B` of valid ranges that are each ordered
and non-overlapping, the output of `Merge(A, B)` is again ordered (the range of
every output record is before the range of the next one) if and only if no
record of one track intersects two records of the other track. -/
theorem C7_ordered_iff_no_double_intersection (A B : List CSubtitle)
    (hA : TrackValid A) (hB : TrackValid B) (oA : Ordered A) (oB : Ordered B) :
    ∃ out, Merge A B [] = .ok (true, out) ∧
      (Ordered out ↔ NoDoubleIntersection A B) := by
  refine ⟨_, Merge_eq A B [] hA, ?_, ?_⟩
  · intro h
    exact noDoubleIntersection_of_ordered A B hA hB oA oB
      (ordered_of_renumberFrom_ordered _ _ h)
  · intro hN
    exact renumberFrom_ordered _ _ (refMerge_ordered A B hA hB oA oB hN)

theorem C7_ordered_iff_no_double_intersection_witness :
    TrackValid [⟨1, ⟨1000, 2000⟩, "Hi"⟩, ⟨2, ⟨3000, 5000⟩, "A"⟩] ∧
    TrackValid [⟨1, ⟨4000, 6000⟩, "B"⟩, ⟨2, ⟨7000, 8000⟩, "Bye"⟩] ∧
    Ordered [⟨1, ⟨1000, 2000⟩, "Hi"⟩, ⟨2, ⟨3000, 5000⟩, "A"⟩] ∧
    Ordered [⟨1, ⟨4000, 6000⟩, "B"⟩, ⟨2, ⟨7000, 8000⟩, "Bye"⟩] ∧
    NoDoubleIntersection [⟨1, ⟨1000, 2000⟩, "Hi"⟩, ⟨2, ⟨3000, 5000⟩, "A"⟩]
      [⟨1, ⟨4000, 6000⟩, "B"⟩, ⟨2, ⟨7000, 8000⟩, "Bye"⟩] ∧
    ∃ out, Merge [⟨1, ⟨1000, 2000⟩, "Hi"⟩, ⟨2, ⟨3000, 5000⟩, "A"⟩]
        [⟨1, ⟨4000, 6000⟩, "B"⟩, ⟨2, ⟨7000, 8000⟩, "Bye"⟩] [] = .ok (true, out) ∧
      (Ordered out ↔ NoDoubleIntersection [⟨1, ⟨1000, 2000⟩, "Hi"⟩, ⟨2, ⟨3000, 5000⟩, "A"⟩]
        [⟨1, ⟨4000, 6000⟩, "B"⟩, ⟨2, ⟨7000, 8000⟩, "Bye"⟩]) :=
  ⟨by decide, by decide, by decide, by decide, by decide,
    C7_ordered_iff_no_double_intersection _ _ (by decide) (by decide) (by decide)
      (by decide)⟩

/-! ## Merge: begin times of the output -/

/-- The begin times of the reference merge of two ordered tracks of valid
ranges increase strictly from each record to the next. -/
theorem refMerge_begin_increasing (A B : List CSubtitle)
    (hA : TrackValid A) (hB : TrackValid B) (oA : Ordered A) (oB : Ordered B) :
    List.Chain' (fun s t : CSubtitle => s.time.beginTime < t.time.beginTime)
      (refMerge A B) := by
  have hord : ∀ l : List CSubtitle, TrackValid l → Ordered l →
      List.Chain' (fun s t : CSubtitle => s.time.beginTime < t.time.beginTime) l := by
    intro l hl ol
    induction l with
    | nil => exact List.chain'_nil
    | cons x rest ih =>
      obtain ⟨hx, hrest⟩ := trackValid_cons.mp hl
      obtain ⟨hh, orest⟩ := ordered_cons.mp ol
      refine List.chain'_cons'.mpr ⟨?_, ih hrest orest⟩
      intro y hy
      have h1 := (CTimeRange.isBefore_iff _ _).mp (hh y hy)
      unfold CTimeRange.Valid at hx
      omega
  induction A generalizing B with
  | nil => rw [refMerge_nil_left]; exact hord B hB oB
  | cons a as ihA =>
    obtain ⟨ha, has⟩ := trackValid_cons.mp hA
    obtain ⟨hah, oas⟩ := ordered_cons.mp oA
    induction B with
    | nil => rw [refMerge_nil_right]; exact hord _ hA oA
    | cons b bs ihB =>
      obtain ⟨hb, hbs⟩ := trackValid_cons.mp hB
      obtain ⟨hbh, obs⟩ := ordered_cons.mp oB
      unfold CTimeRange.Valid at ha hb
      have hnextA : ∀ x ∈ as.head?, a.time.beginTime + 1 ≤ x.time.beginTime := by
        intro x hx
        have := (CTimeRange.isBefore_iff _ _).mp (hah x hx)
        omega
      have hnextB : ∀ y ∈ bs.head?, b.time.beginTime + 1 ≤ y.time.beginTime := by
        intro y hy
        have := (CTimeRange.isBefore_iff _ _).mp (hbh y hy)
        omega
      cases h : a.time.HasIntersection b.time
      · cases hbf : a.time.IsBefore b.time
        · rw [refMerge_after as bs h hbf]
          refine List.chain'_cons'.mpr ⟨?_, ihB hbs obs⟩
          intro o ho
          refine refMerge_head_ge (a :: as) bs (b.time.beginTime + 1) ?_ hnextB o ho
          intro x hx
          cases hx
          rw [CTimeRange.hasIntersection_eq_false_iff] at h
          rw [CTimeRange.isBefore_eq_false_iff] at hbf
          omega
        · rw [refMerge_before as bs h hbf]
          refine List.chain'_cons'.mpr ⟨?_, ihA (b :: bs) has hB oas oB⟩
          intro o ho
          refine refMerge_head_ge as (b :: bs) (a.time.beginTime + 1) hnextA ?_ o ho
          intro y hy
          cases hy
          rw [CTimeRange.isBefore_iff] at hbf
          omega
      · rw [refMerge_intersect as bs h]
        refine List.chain'_cons'.mpr ⟨?_, ihA bs has hbs oas obs⟩
        intro o ho
        show min a.time.beginTime b.time.beginTime + 1 ≤ o.time.beginTime
        refine refMerge_head_ge as bs _ ?_ ?_ o ho
        · intro x hx
          have := hnextA x hx
          have := Nat.min_le_left a.time.beginTime b.time.beginTime
          omega
        · intro y hy
          have := hnextB y hy
          have := Nat.min_le_right a.time.beginTime b.time.beginTime
          omega

/-- C20: for tracks `A` and `B` of valid ranges that are each ordered and
non-overlapping, the begin times of the records output by `Merge(A, B)`
increase strictly from each output record to the next (also where consecutive
output ranges overlap). -/
theorem C20_begin_strictly_increasing (A B : List CSubtitle)
    (hA : TrackValid A) (hB : TrackValid B) (oA : Ordered A) (oB : Ordered B) :
    ∃ out, Merge A B [] = .ok (true, out) ∧
      List.Chain' (· < ·) (out.map (·.time.beginTime)) := by
  refine ⟨_, Merge_eq A B [] hA, ?_⟩
  have h := refMerge_begin_increasing A B hA hB oA oB
  have hmap : (renumberFrom 1 (refMerge A B)).map (·.time.beginTime) =
      (refMerge A B).map (·.time.beginTime) := by
    have := congrArg (List.map CTimeRange.beginTime) (renumberFrom_map_time 1 (refMerge A B))
    simpa [List.map_map] using this
  simp only [List.nil_append, List.length_nil, Nat.zero_add]
  rw [hmap]
  exact (List.chain'_map _).mpr h

theorem C20_begin_strictly_increasing_witness :
    TrackValid [⟨1, ⟨1000, 9000⟩, "A"⟩] ∧
    TrackValid [⟨1, ⟨2000, 3000⟩, "B1"⟩, ⟨2, ⟨4000, 5000⟩, "B2"⟩] ∧
    Ordered [⟨1, ⟨1000, 9000⟩, "A"⟩] ∧
    Ordered [⟨1, ⟨2000, 3000⟩, "B1"⟩, ⟨2, ⟨4000, 5000⟩, "B2"⟩] ∧
    ∃ out, Merge [⟨1, ⟨1000, 9000⟩, "A"⟩]
        [⟨1, ⟨2000, 3000⟩, "B1"⟩, ⟨2, ⟨4000, 5000⟩, "B2"⟩] [] = .ok (true, out) ∧
      List.Chain' (· < ·) (out.map (·.time.beginTime)) :=
  ⟨by decide, by decide, by decide, by decide,
    C20_begin_strictly_increasing _ _ (by decide) (by decide) (by decide) (by decide)⟩

/-! ## CompareAndExtract and Fill: lemmas and claims -/

theorem compareAndExtract_loop_star (t : Char) (rest : List (Char × Char))
    (result : List Char) :
    CompareAndExtract.loop (('*', t) :: rest) result =
      CompareAndExtract.loop rest (result ++ [t]) := by
  simp [CompareAndExtract.loop]

theorem compareAndExtract_loop_same (f : Char) (hf : f ≠ '*') (rest : List (Char × Char))
    (result : List Char) :
    CompareAndExtract.loop ((f, f) :: rest) result = CompareAndExtract.loop rest result := by
  simp [CompareAndExtract.loop, hf]

theorem compareAndExtract_loop_differ (f t : Char) (hf : f ≠ '*') (hft : f ≠ t)
    (rest : List (Char × Char)) (result : List Char) :
    CompareAndExtract.loop ((f, t) :: rest) result = (false, result) := by
  simp [CompareAndExtract.loop, hf, hft]

theorem compareAndExtract_loop_fst (ps : List (Char × Char)) (result : List Char) :
    (CompareAndExtract.loop ps result).1 = true ↔ ∀ p ∈ ps, p.1 ≠ '*' → p.1 = p.2 := by
  induction ps generalizing result with
  | nil => simp [CompareAndExtract.loop]
  | cons p rest ih =>
    obtain ⟨f, t⟩ := p
    by_cases hf : f = '*'
    · subst hf
      rw [compareAndExtract_loop_star, ih]
      simp
    · by_cases hft : f = t
      · subst hft
        rw [compareAndExtract_loop_same f hf, ih]
        simp
      · rw [compareAndExtract_loop_differ f t hf hft]
        simp [hf, hft]

theorem compareAndExtract_loop_snd (ps : List (Char × Char)) (result : List Char)
    (h : (CompareAndExtract.loop ps result).1 = true) :
    (CompareAndExtract.loop ps result).2 =
      result ++ (ps.filter (fun p => p.1 = '*')).map (·.2) := by
  induction ps generalizing result with
  | nil => simp [CompareAndExtract.loop]
  | cons p rest ih =>
    obtain ⟨f, t⟩ := p
    by_cases hf : f = '*'
    · subst hf
      rw [compareAndExtract_loop_star] at h ⊢
      rw [ih _ h]
      simp
    · by_cases hft : f = t
      · subst hft
        rw [compareAndExtract_loop_same f hf] at h ⊢
        rw [ih _ h]
        simp [hf]
      · rw [compareAndExtract_loop_differ f t hf hft] at h
        simp at h

theorem forall_mem_zip_iff (P : Char → Char → Prop) (t x : List Char)
    (hlen : t.length = x.length) :
    (∀ p ∈ t.zip x, P p.1 p.2) ↔
      ∀ (i : Nat) (ht : i < t.length) (hx : i < x.length), P t[i] x[i] := by
  induction t generalizing x with
  | nil => simp
  | cons a as ih =>
    cases x with
    | nil => simp at hlen
    | cons b bs =>
      have hlen' : as.length = bs.length := by simpa using hlen
      simp only [List.zip_cons_cons, List.mem_cons, forall_eq_or_imp, ih bs hlen',
        List.length_cons]
      constructor
      · rintro ⟨h0, hs⟩ i ht hx
        cases i with
        | zero => exact h0
        | succ j => exact hs j (by omega) (by omega)
      · intro h
        exact ⟨h 0 (by omega) (by omega),
          fun i ht hx => h (i + 1) (by omega) (by omega)⟩

/-- C12: `CompareAndExtract(t, x)` succeeds iff `x` has the length of `t` and
agrees with `t` at every position where `t` is not `*`; on success the result
is the concatenation, in order, of the characters of `x` at the positions where
`t` is `*`, whatever those characters are. -/
theorem C12_compareAndExtract (t x : List Char) :
    ((CompareAndExtract t x).1 = true ↔
      t.length = x.length ∧
        ∀ (i : Nat) (ht : i < t.length) (hx : i < x.length), t[i] ≠ '*' → t[i] = x[i]) ∧
    ((CompareAndExtract t x).1 = true →
      (CompareAndExtract t x).2 = ((t.zip x).filter (fun p => p.1 = '*')).map (·.2)) := by
  by_cases hlen : t.length = x.length
  · have hdef : CompareAndExtract t x = CompareAndExtract.loop (t.zip x) [] := by
      simp [CompareAndExtract, hlen]
    rw [hdef]
    constructor
    · rw [compareAndExtract_loop_fst,
        forall_mem_zip_iff (fun a b => a ≠ '*' → a = b) t x hlen]
      simp [hlen]
    · intro h
      simpa using compareAndExtract_loop_snd _ [] h
  · simp [CompareAndExtract, hlen]

theorem fill_loop_spec (fs text done : List Char) (h : text.length = fs.count '*') :
    ∃ r, Fill.loop done fs text = (true, done ++ r) ∧ r.length = fs.length ∧
      ∀ res, CompareAndExtract.loop (fs.zip r) res = (true, res ++ text) := by
  induction fs generalizing text done with
  | nil =>
    have ht : text = [] := by simpa using h
    subst ht
    exact ⟨[], by simp [Fill.loop], rfl, by simp [CompareAndExtract.loop]⟩
  | cons c fs ih =>
    by_cases hc : c = '*'
    · subst hc
      cases text with
      | nil => simp at h
      | cons t ts =>
        have h' : ts.length = fs.count '*' := by simpa using h
        obtain ⟨r, hr, hlen, hce⟩ := ih ts (done ++ [t]) h'
        refine ⟨t :: r, ?_, by simp [hlen], ?_⟩
        · simp [Fill.loop, hr]
        · intro res
          rw [List.zip_cons_cons, compareAndExtract_loop_star, hce]
          simp
    · have h' : text.length = fs.count '*' := by
        rw [h, List.count_cons_of_ne (Ne.symm hc)]
      obtain ⟨r, hr, hlen, hce⟩ := ih text (done ++ [c]) h'
      refine ⟨c :: r, ?_, by simp [hlen], ?_⟩
      · simp [Fill.loop, hc, hr]
      · intro res
        rw [List.zip_cons_cons, compareAndExtract_loop_same c hc, hce]

/-- C11: for every template `t` and every string `s` whose length is the number
of `*` of `t`, `Fill(t, s)` succeeds with some string `r`, and
`CompareAndExtract(t, r)` succeeds and returns exactly `s`. -/
theorem C11_fill_then_extract (t s : List Char) (h : s.length = t.count '*') :
    ∃ r, Fill t s = (true, r) ∧ CompareAndExtract t r = (true, s) := by
  obtain ⟨r, hr, hlen, hce⟩ := fill_loop_spec t s [] h
  refine ⟨r, by simpa [Fill] using hr, ?_⟩
  simp [CompareAndExtract, hlen, hce]

theorem C11_fill_then_extract_witness :
    "000001000000002000".data.length = timeFormat.count '*' ∧
    Fill timeFormat "000001000000002000".data = (true, "00:00:01,000 --> 00:00:02,000".data) ∧
    ∃ r, Fill timeFormat "000001000000002000".data = (true, r) ∧
      CompareAndExtract timeFormat r = (true, "000001000000002000".data) :=
  ⟨by decide, by decide, C11_fill_then_extract _ _ (by decide)⟩


theorem C12_compareAndExtract_witness :
    (CompareAndExtract timeFormat "00:00:01,000 --> 00:00:02,000".data).1 = true ∧
    (CompareAndExtract timeFormat "00:00:01,000 --> 00:00:02,000".data).2 =
      "000001000000002000".data ∧
    (CompareAndExtract timeFormat "00:00:01,000 --> 00:00:02,000".data).2 =
      ((timeFormat.zip "00:00:01,000 --> 00:00:02,000".data).filter
        (fun p => p.1 = '*')).map (·.2) :=
  ⟨by decide, by decide,
    (C12_compareAndExtract timeFormat "00:00:01,000 --> 00:00:02,000".data).2 (by decide)⟩

/-- `Fill` succeeds exactly when the text has as many characters as the format
has `*`. -/
theorem fill_loop_fst (fs text done : List Char) :
    (Fill.loop done fs text).1 = true ↔ text.length = fs.count '*' := by
  induction fs generalizing text done with
  | nil => cases text <;> simp [Fill.loop]
  | cons c fs ih =>
    by_cases hc : c = '*'
    · subst hc
      cases text with
      | nil => simp [Fill.loop]
      | cons t ts => simp [Fill.loop, ih]
    · simp [Fill.loop, hc, ih, List.count_cons_of_ne (Ne.symm hc)]

theorem fill_fst (format text : List Char) :
    (Fill format text).1 = true ↔ text.length = format.count '*' :=
  fill_loop_fst format text []

/-! ## Decimal output -/

theorem toDigitsCore_append (fuel n : Nat) (ds : List Char) :
    Nat.toDigitsCore 10 fuel n ds = Nat.toDigitsCore 10 fuel n [] ++ ds := by
  induction fuel generalizing n ds with
  | zero => simp [Nat.toDigitsCore]
  | succ f ih =>
    simp only [Nat.toDigitsCore]
    split
    · simp
    · rw [ih (n / 10) (Nat.digitChar (n % 10) :: ds), ih (n / 10) [Nat.digitChar (n % 10)]]
      simp

theorem toDigitsCore_fuel (fuel fuel' n : Nat) (ds : List Char)
    (h : n < fuel) (h' : n < fuel') :
    Nat.toDigitsCore 10 fuel n ds = Nat.toDigitsCore 10 fuel' n ds := by
  induction fuel generalizing fuel' n ds with
  | zero => omega
  | succ f ih =>
    cases fuel' with
    | zero => omega
    | succ f' =>
      simp only [Nat.toDigitsCore]
      split
      · rfl
      · next hne =>
        have : n / 10 < n := Nat.div_lt_self (by omega) (by decide)
        exact ih f' (n / 10) _ (by omega) (by omega)

/-- The decimal digits of `n`: one digit below 10, otherwise the digits of
`n / 10` followed by the digit `n % 10`. -/
theorem toDigits_eq (n : Nat) :
    Nat.toDigits 10 n =
      if n < 10 then [Nat.digitChar n]
      else Nat.toDigits 10 (n / 10) ++ [Nat.digitChar (n % 10)] := by
  unfold Nat.toDigits
  rw [Nat.toDigitsCore]
  by_cases h : n < 10
  · have h0 : n / 10 = 0 := Nat.div_eq_of_lt h
    have hm : n % 10 = n := Nat.mod_eq_of_lt h
    simp [h, h0, hm]
  · have h0 : n / 10 ≠ 0 := by omega
    simp only [h0, if_false, h]
    rw [toDigitsCore_append, toDigitsCore_fuel n (n / 10 + 1) (n / 10) [] (by omega) (by omega)]

theorem toDigits_length_pos (n : Nat) : 0 < (Nat.toDigits 10 n).length := by
  rw [toDigits_eq]
  split <;> simp

theorem toDigits_length_le_iff (n k : Nat) (hk : 0 < k) :
    (Nat.toDigits 10 n).length ≤ k ↔ n < 10 ^ k := by
  induction n using Nat.strong_induction_on generalizing k with
  | _ n ih =>
    rw [toDigits_eq]
    by_cases h : n < 10
    · simp only [h, if_true, List.length_singleton]
      have : 10 ^ 1 ≤ 10 ^ k := Nat.pow_le_pow_right (by decide) hk
      omega
    · simp only [h, if_false, List.length_append, List.length_singleton]
      cases k with
      | zero => omega
      | succ k =>
        cases k with
        | zero =>
          have := toDigits_length_pos (n / 10)
          simp only [Nat.zero_add, Nat.pow_one]
          omega
        | succ k =>
          have hlt : n / 10 < n := Nat.div_lt_self (by omega) (by decide)
          rw [Nat.add_le_add_iff_right, ih (n / 10) hlt (k + 1) (by omega),
            Nat.div_lt_iff_lt_mul (by decide), ← Nat.pow_succ]

theorem decimalPadded_length (n : Nat) :
    (decimalPadded 9 '0' n).length = max 9 (Nat.toDigits 10 n).length := by
  simp [decimalPadded, List.leftpad]
  omega

theorem decimalPadded_length_eq_iff (n : Nat) :
    (decimalPadded 9 '0' n).length = 9 ↔ n < 10 ^ 9 := by
  rw [decimalPadded_length, ← toDigits_length_le_iff n 9 (by decide)]
  omega

theorem decimalPadded_length_ge (n : Nat) : 9 ≤ (decimalPadded 9 '0' n).length := by
  rw [decimalPadded_length]
  omega

/-! ## Write: lemmas and claims -/

theorem timeFormat_count : timeFormat.count '*' = 18 := by decide

/-- The time line of a record can be written exactly when both its times are
below `10 ^ 9`. -/
theorem fill_times_fst (b e : Nat) :
    (Fill timeFormat (decimalPadded 9 '0' b ++ decimalPadded 9 '0' e)).1 = true ↔
      b < 10 ^ 9 ∧ e < 10 ^ 9 := by
  rw [fill_fst, timeFormat_count, List.length_append,
    ← decimalPadded_length_eq_iff b, ← decimalPadded_length_eq_iff e]
  have := decimalPadded_length_ge b
  have := decimalPadded_length_ge e
  omega

theorem write_loop_fst (T : List CSubtitle) (output : List Char) :
    (Write.loop T output).1 = true ↔
      ∀ r ∈ T, r.time.beginTime < 10 ^ 9 ∧ r.time.endTime < 10 ^ 9 := by
  induction T generalizing output with
  | nil => simp [Write.loop]
  | cons r rest ih =>
    simp only [Write.loop, CSubtitle.Time, CTimeRange.Begin, CTimeRange.End]
    by_cases hf : (Fill timeFormat (decimalPadded 9 '0' r.time.beginTime ++
        decimalPadded 9 '0' r.time.endTime)).1 = true
    · have hr := (fill_times_fst _ _).mp hf
      simp only [hf, Bool.not_true, Bool.false_eq_true, if_false, ih, List.mem_cons,
        forall_eq_or_imp]
      exact ⟨fun h => ⟨hr, h⟩, fun h => h.2⟩
    · have hr : ¬ (r.time.beginTime < 10 ^ 9 ∧ r.time.endTime < 10 ^ 9) :=
        fun h => hf ((fill_times_fst _ _).mpr h)
      simp only [Bool.not_eq_true] at hf
      simp only [hf, Bool.not_false, if_true, List.mem_cons, forall_eq_or_imp]
      constructor
      · intro h
        exact absurd h (by decide)
      · intro h
        exact absurd h.1 hr

theorem write_loop_ok (T : List CSubtitle) (output : List Char)
    (h : ∀ r ∈ T, r.time.beginTime < 10 ^ 9 ∧ r.time.endTime < 10 ^ 9) :
    Write.loop T output = (true, output ++ (T.map recordText).flatten) := by
  induction T generalizing output with
  | nil => simp [Write.loop]
  | cons r rest ih =>
    have hr := h r (List.mem_cons_self _ _)
    have hf := (fill_times_fst _ _).mpr hr
    simp only [Write.loop, CSubtitle.Time, CTimeRange.Begin, CTimeRange.End, hf,
      Bool.not_true, Bool.false_eq_true, if_false, CSubtitle.Id, CSubtitle.Text]
    rw [ih _ (fun x hx => h x (List.mem_cons_of_mem _ hx))]
    simp [recordText, timeLine, List.append_assoc]

/-- C18: on a track of valid ranges, `Write` returns failure iff some record has
`end >= 10^9`; on a track whose timestamps are all below `10^9` it succeeds and
writes for each record, in order, the id line, the time line filled from the
9-digit zero-padded begin and end, and the text followed by a line
terminator. -/
theorem C18_write (T : List CSubtitle) (hT : TrackValid T) :
    ((Write T).1 = false ↔ ∃ r ∈ T, r.time.endTime ≥ 10 ^ 9) ∧
    ((∀ r ∈ T, r.time.endTime < 10 ^ 9) →
      Write T = (true, (T.map recordText).flatten) ∧
      ∀ r ∈ T, (decimalPadded 9 '0' r.time.beginTime).length = 9 ∧
        (decimalPadded 9 '0' r.time.endTime).length = 9 ∧
        Fill timeFormat (decimalPadded 9 '0' r.time.beginTime ++
          decimalPadded 9 '0' r.time.endTime) = (true, timeLine r)) := by
  have hboth : (∀ r ∈ T, r.time.endTime < 10 ^ 9) →
      ∀ r ∈ T, r.time.beginTime < 10 ^ 9 ∧ r.time.endTime < 10 ^ 9 := by
    intro h r hr
    have h1 := h r hr
    have h2 : r.time.beginTime < r.time.endTime := hT r hr
    omega
  constructor
  · rw [← Bool.not_eq_true, Write, write_loop_fst]
    constructor
    · intro h
      by_contra hcon
      apply h
      apply hboth
      intro r hr
      by_contra hge
      exact hcon ⟨r, hr, by omega⟩
    · rintro ⟨r, hr, hge⟩ h
      have := (h r hr).2
      omega
  · intro h
    refine ⟨by simpa [Write] using write_loop_ok T [] (hboth h), ?_⟩
    intro r hr
    obtain ⟨hb, he⟩ := hboth h r hr
    refine ⟨(decimalPadded_length_eq_iff _).mpr hb, (decimalPadded_length_eq_iff _).mpr he, ?_⟩
    have hf := (fill_times_fst _ _).mpr ⟨hb, he⟩
    exact Prod.ext hf rfl

theorem C18_write_witness :
    TrackValid [⟨1, ⟨1000, 2000⟩, "Hi\n"⟩, ⟨2, ⟨3000, 999999999⟩, "Ho\nHum\n"⟩] ∧
    Write [⟨1, ⟨1000, 2000⟩, "Hi\n"⟩, ⟨2, ⟨3000, 999999999⟩, "Ho\nHum\n"⟩] = (true,
      ("1\n00:00:01,000 --> 00:00:02,000\nHi\n\n" ++
       "2\n00:00:03,000 --> 99:99:99,999\nHo\nHum\n\n").data) ∧
    TrackValid [⟨1, ⟨1000, 1000000000⟩, "Hi\n"⟩] ∧
    (Write [⟨1, ⟨1000, 1000000000⟩, "Hi\n"⟩]).1 = false :=
  ⟨by decide, by decide, by decide,
    (C18_write [⟨1, ⟨1000, 1000000000⟩, "Hi\n"⟩] (by decide)).1.mpr
      ⟨_, List.mem_cons_self _ _, by decide⟩⟩


/-! ## Streams: lemmas -/

theorem splitLine_some {cs l rest : List Char} (h : splitLine cs = (l, some rest)) :
    cs = l ++ '\n' :: rest ∧ '\n' ∉ l := by
  induction cs generalizing l with
  | nil => simp [splitLine] at h
  | cons c cs ih =>
    by_cases hc : c = '\n'
    · simp only [splitLine, hc, if_true, Prod.mk.injEq, Option.some.injEq] at h
      obtain ⟨rfl, rfl⟩ := h
      simp [hc]
    · simp only [splitLine, hc, if_false, Prod.mk.injEq] at h
      obtain ⟨rfl, h2⟩ := h
      obtain ⟨h3, h4⟩ := ih (l := (splitLine cs).1) (Prod.ext rfl h2)
      refine ⟨by rw [List.cons_append, ← h3], ?_⟩
      simp only [List.mem_cons, not_or]
      exact ⟨fun h => hc h.symm, h4⟩

theorem splitLine_none {cs l : List Char} (h : splitLine cs = (l, none)) :
    l = cs ∧ '\n' ∉ l := by
  induction cs generalizing l with
  | nil =>
    simp only [splitLine, Prod.mk.injEq] at h
    simp [← h.1]
  | cons c cs ih =>
    by_cases hc : c = '\n'
    · simp [splitLine, hc] at h
    · simp only [splitLine, hc, if_false, Prod.mk.injEq] at h
      obtain ⟨rfl, h2⟩ := h
      obtain ⟨h3, h4⟩ := ih (l := (splitLine cs).1) (Prod.ext rfl h2)
      refine ⟨by rw [h3], ?_⟩
      simp only [List.mem_cons, not_or]
      exact ⟨fun h => hc h.symm, h4⟩

theorem splitLine_append (l rest : List Char) (h : '\n' ∉ l) :
    splitLine (l ++ '\n' :: rest) = (l, some rest) := by
  induction l with
  | nil => simp [splitLine]
  | cons c l ih =>
    simp only [List.mem_cons, not_or] at h
    have hc : ¬ c = '\n' := fun hc => h.1 hc.symm
    simp [splitLine, hc, ih h.2]

theorem getline_not_good (input : IStream) (line : List Char) (h : input.good = false) :
    getline input line = ({ input with failbit := true }, line) := by
  simp [getline, h]

theorem getline_some (input : IStream) (line l rest : List Char) (h : input.good = true)
    (hs : splitLine input.rest = (l, some rest)) :
    getline input line = ({ input with rest := rest }, l) := by
  simp [getline, h, hs]

theorem getline_none (input : IStream) (line l : List Char) (h : input.good = true)
    (hs : splitLine input.rest = (l, none)) :
    getline input line = (⟨[], true, l.isEmpty⟩, l) := by
  simp [getline, h, hs]

/-- The three ways `getline` can go. -/
theorem getline_cases (input : IStream) (line : List Char) :
    (input.good = false ∧ getline input line = ({ input with failbit := true }, line)) ∨
    (input.good = true ∧ ∃ l rest, input.rest = l ++ '\n' :: rest ∧ '\n' ∉ l ∧
      getline input line = ({ input with rest := rest }, l)) ∨
    (input.good = true ∧ '\n' ∉ input.rest ∧
      getline input line = (⟨[], true, input.rest.isEmpty⟩, input.rest)) := by
  cases hg : input.good
  · exact Or.inl ⟨rfl, getline_not_good input line hg⟩
  · cases hs : splitLine input.rest with
    | mk l o =>
      cases o with
      | none =>
        obtain ⟨h1, h2⟩ := splitLine_none hs
        subst h1
        exact Or.inr (Or.inr ⟨rfl, h2, getline_none input line _ hg hs⟩)
      | some rest =>
        obtain ⟨h1, h2⟩ := splitLine_some hs
        exact Or.inr (Or.inl ⟨rfl, l, rest, h1, h2, getline_some input line l rest hg hs⟩)

theorem IStream.eof_of_not_good {input : IStream} (hi : input.FailAtEof)
    (h : input.good = false) : input.eof = true := by
  unfold IStream.good at h
  unfold IStream.FailAtEof at hi
  unfold IStream.eof
  cases he : input.eofbit
  · cases hf : input.failbit
    · simp [he, hf] at h
    · exact absurd (hi hf) (by simp [he])
  · rfl

theorem IStream.not_good_of_eof {input : IStream} (h : input.eof = true) :
    input.good = false := by
  unfold IStream.eof at h
  simp [IStream.good, h]

theorem getline_rest_le (input : IStream) (line : List Char) :
    (getline input line).1.rest.length ≤ input.rest.length := by
  rcases getline_cases input line with ⟨-, h⟩ | ⟨-, l, rest, hr, -, h⟩ | ⟨-, -, h⟩
  · rw [h]
  · rw [h, hr]
    simp only [List.length_append, List.length_cons]
    omega
  · rw [h]; simp

theorem getline_good (input : IStream) (line : List Char)
    (h : (getline input line).1.good = true) :
    input.good = true ∧ (getline input line).1.rest.length < input.rest.length := by
  rcases getline_cases input line with ⟨hg, he⟩ | ⟨hg, l, rest, hr, -, he⟩ | ⟨hg, -, he⟩
  · rw [he] at h
    simp [IStream.good] at h
  · rw [he, hr]
    refine ⟨hg, ?_⟩
    simp only [List.length_append, List.length_cons]
    omega
  · rw [he] at h
    simp [IStream.good] at h

theorem getline_failAtEof (input : IStream) (line : List Char) (hi : input.FailAtEof) :
    (getline input line).1.FailAtEof := by
  rcases getline_cases input line with ⟨hg, he⟩ | ⟨hg, l, rest, hr, -, he⟩ | ⟨hg, -, he⟩
  · rw [he]
    intro _
    show input.eofbit = true
    exact IStream.eof_of_not_good hi hg
  · rw [he]
    exact hi
  · rw [he]
    intro _
    rfl

theorem getline_line_no_newline (input : IStream) (line : List Char)
    (hg : input.good = true) : '\n' ∉ (getline input line).2 := by
  rcases getline_cases input line with ⟨hg', -⟩ | ⟨-, l, rest, -, hl, he⟩ | ⟨-, hl, he⟩
  · rw [hg] at hg'; cases hg'
  · rw [he]; exact hl
  · rw [he]; exact hl

theorem readLine_fst (input : IStream) (line : List Char) :
    (ReadLine input line).1 = (getline input line).1 := by
  unfold ReadLine
  dsimp only
  split <;> rfl

theorem readLine_line_no_newline (input : IStream) (line : List Char)
    (hg : input.good = true) : '\n' ∉ (ReadLine input line).2 := by
  have h := getline_line_no_newline input line hg
  unfold ReadLine
  dsimp only
  split
  · exact fun hm => h (List.mem_of_mem_dropLast hm)
  · exact h

theorem readLine_rest_le (input : IStream) (line : List Char) :
    (ReadLine input line).1.rest.length ≤ input.rest.length := by
  rw [readLine_fst]; exact getline_rest_le input line

theorem readLine_good (input : IStream) (line : List Char)
    (h : (ReadLine input line).1.good = true) :
    input.good = true ∧ (ReadLine input line).1.rest.length < input.rest.length := by
  rw [readLine_fst] at h ⊢; exact getline_good input line h

theorem readLine_failAtEof (input : IStream) (line : List Char) (hi : input.FailAtEof) :
    (ReadLine input line).1.FailAtEof := by
  rw [readLine_fst]; exact getline_failAtEof input line hi

/-- The loop `while( input.good() && line.empty() )` is left by its condition:
`input.rest.length + 1` iterations (or more) are enough. -/
theorem skipEmptyLines_exit (fuel : Nat) (input : IStream) (line : List Char)
    (hf : input.rest.length + 1 ≤ fuel) :
    ¬ ((skipEmptyLines fuel input line).1.good = true ∧
      (skipEmptyLines fuel input line).2.isEmpty = true) := by
  induction fuel generalizing input line with
  | zero => omega
  | succ f ih =>
    unfold skipEmptyLines
    by_cases hc : (input.good && line.isEmpty) = true
    · simp only [hc, if_true]
      by_cases hg : (ReadLine input line).1.good = true
      · have := (readLine_good input line hg).2
        exact ih _ _ (by omega)
      · -- the stream is not good any more: the next test of the condition fails
        cases f with
        | zero => simp only [skipEmptyLines]; exact fun h => hg h.1
        | succ f' =>
          unfold skipEmptyLines
          simp only [Bool.not_eq_true] at hg
          simp only [hg, Bool.false_and, Bool.false_eq_true, if_false]
          simp
    · simp only [hc, if_false]
      simpa using hc

theorem skipEmptyLines_props (fuel : Nat) (input : IStream) (line : List Char) :
    (skipEmptyLines fuel input line).1.rest.length ≤ input.rest.length ∧
    ((skipEmptyLines fuel input line).1.good = true → input.good = true) ∧
    (input.FailAtEof → (skipEmptyLines fuel input line).1.FailAtEof) ∧
    (line = [] → (skipEmptyLines fuel input line).2 ≠ [] →
      (skipEmptyLines fuel input line).1.good = true →
      (skipEmptyLines fuel input line).1.rest.length < input.rest.length) := by
  induction fuel generalizing input line with
  | zero =>
    simp only [skipEmptyLines]
    exact ⟨Nat.le_refl _, id, id, fun hl hne => absurd hl hne⟩
  | succ f ih =>
    unfold skipEmptyLines
    by_cases hc : (input.good && line.isEmpty) = true
    · simp only [hc, if_true]
      obtain ⟨h1, h2, h3, -⟩ := ih (ReadLine input line).1 (ReadLine input line).2
      have hle := readLine_rest_le input line
      refine ⟨by omega, ?_, fun hi => h3 (readLine_failAtEof input line hi), ?_⟩
      · intro hg
        exact (readLine_good input line (h2 hg)).1
      · intro _ _ hg
        have := (readLine_good input line (h2 hg)).2
        omega
    · simp only [hc, if_false]
      refine ⟨Nat.le_refl _, id, id, ?_⟩
      intro hl hne
      exact absurd hl hne


theorem substr_zero (str : List Char) (n : Nat) : substr str 0 n = .ok (str.take n) := by
  simp [substr, pure, Except.pure]

theorem substr_ok {str : List Char} {pos n : Nat} (h : pos ≤ str.length) :
    substr str pos n = .ok ((str.drop pos).take n) := by
  simp [substr, Nat.not_lt.mpr h, pure, Except.pure]

theorem substr_error {str : List Char} {pos n : Nat} (h : str.length < pos) :
    substr str pos n = .error Error.substrOutOfRange := by
  simp [substr, h, throw, throwThe, MonadExceptOf.throw]

/-- What a successful `ReadSubtitle` has done: the id line is `stoul`-read as
the expected id over its whole length, the next line matches the time format,
the two blocks of 9 characters are `stoul`-read as `b < e`, and at least one
text line follows. -/
theorem readSubtitle_true (input i' : IStream) (s s' : CSubtitle)
    (h : ReadSubtitle input s = .ok (true, i', s')) :
    ∃ i0 line i1 tline subTimes b e pb pe text,
      skipEmptyLines (input.rest.length + 1) input [] = (i0, line) ∧
      line ≠ [] ∧ stoul line = .ok (s.id, line.length) ∧ s.id ≠ 0 ∧
      ReadLine i0 line = (i1, tline) ∧
      CompareAndExtract timeFormat tline = (true, subTimes) ∧
      stoul (subTimes.take 9) = .ok (b, pb) ∧
      stoul ((subTimes.drop 9).take 9) = .ok (e, pe) ∧
      b < e ∧
      readText (i1.rest.length + 1) i1 tline [] = (i', text) ∧
      text ≠ [] ∧ s' = ⟨s.id, ⟨b, e⟩, ⟨text⟩⟩ := by
  unfold ReadSubtitle at h
  dsimp only at h
  generalize hr0 : skipEmptyLines (input.rest.length + 1) input [] = r0 at h
  obtain ⟨i0, line⟩ := r0
  generalize hr1 : ReadLine i0 line = r1 at h
  obtain ⟨i1, tline⟩ := r1
  generalize hc : CompareAndExtract timeFormat tline = c at h
  obtain ⟨cok, subTimes⟩ := c
  generalize ht : readText (i1.rest.length + 1) i1 tline [] = t at h
  obtain ⟨i2, text⟩ := t
  dsimp only at h
  split at h
  · simp [pure, Except.pure] at h
  · next hline =>
    split at h
    · simp [pure, Except.pure] at h
    · next id pos hst =>
      split at h
      · simp [pure, Except.pure] at h
      · next hpos =>
        split at h
        · simp [pure, Except.pure] at h
        · next hid =>
          split at h
          · simp [pure, Except.pure] at h
          · next hcok =>
            rw [substr_zero] at h
            simp only [bind, Except.bind] at h
            cases hb : stoul (List.take 9 subTimes) with
            | error err => simp [hb] at h
            | ok vb =>
              obtain ⟨b, pb⟩ := vb
              simp only [hb] at h
              cases hsub : substr subTimes 9 9 with
              | error err => simp [hsub] at h
              | ok sub9 =>
                simp only [hsub] at h
                cases he : stoul sub9 with
                | error err => simp [he] at h
                | ok ve =>
                  obtain ⟨e, pe⟩ := ve
                  simp only [he] at h
                  split at h
                  · simp [pure, Except.pure] at h
                  · next hlt =>
                    split at h
                    · simp [pure, Except.pure] at h
                    · next htext =>
                      have hlt' : b < e := by simpa using hlt
                      rw [CTimeRange.new_eq_ok hlt'] at h
                      simp only [pure, Except.pure, Except.ok.injEq, Prod.mk.injEq,
                        true_and] at h
                      have hsub9 : sub9 = (subTimes.drop 9).take 9 := by
                        by_cases hl : 9 ≤ subTimes.length
                        · rw [substr_ok hl] at hsub
                          cases hsub; rfl
                        · rw [substr_error (by omega)] at hsub
                          cases hsub
                      simp only [Bool.or_eq_true, decide_eq_true_eq, not_or, ne_eq,
                        Decidable.not_not] at hpos
                      simp only [CSubtitle.Id, ne_eq, Decidable.not_not] at hid
                      simp only [Bool.not_eq_true', Bool.not_eq_false] at hcok
                      refine ⟨i0, line, i1, tline, subTimes, b, e, pb, pe, text, rfl, ?_, ?_,
                        ?_, hr1, ?_, hb, ?_, hlt', ?_, ?_, ?_⟩
                      · simpa using hline
                      · rw [hst, hid, hpos.1]
                      · rw [hid]; exact hpos.2
                      · rw [hc, hcok]
                      · rw [← hsub9]; exact he
                      · rw [ht, h.1]
                      · simpa using htext
                      · rw [← h.2]
                        rfl


theorem readText_stop (fuel : Nat) (input : IStream) (line text : List Char)
    (h : input.good = false) : readText fuel input line text = (input, text) := by
  cases fuel with
  | zero => rfl
  | succ f =>
    unfold readText
    rw [if_neg (by simp [h])]

theorem readText_break (fuel : Nat) (input : IStream) (line text : List Char)
    (hg : input.good = true) (he : (ReadLine input line).2.isEmpty = true) :
    readText (fuel + 1) input line text = ((ReadLine input line).1, text) := by
  unfold readText
  rw [if_pos hg, if_pos he]

theorem readText_step (fuel : Nat) (input : IStream) (line text : List Char)
    (hg : input.good = true) (he : ¬ (ReadLine input line).2.isEmpty = true) :
    readText (fuel + 1) input line text =
      readText fuel (ReadLine input line).1 (ReadLine input line).2
        (text ++ ((ReadLine input line).2 ++ ['\n'])) := by
  rw [readText, if_pos hg, if_neg he]

theorem readText_props (fuel : Nat) (input : IStream) (line text : List Char) :
    (readText fuel input line text).1.rest.length ≤ input.rest.length ∧
    ((readText fuel input line text).1.good = true → input.good = true) ∧
    (input.FailAtEof → (readText fuel input line text).1.FailAtEof) ∧
    ∃ lines : List (List Char), (∀ l ∈ lines, l ≠ [] ∧ '\n' ∉ l) ∧
      (readText fuel input line text).2 = text ++ (lines.map (· ++ ['\n'])).flatten := by
  induction fuel generalizing input line text with
  | zero =>
    simp only [readText]
    exact ⟨Nat.le_refl _, id, id, [], by simp, by simp⟩
  | succ f ih =>
    cases hg : input.good
    · rw [readText_stop _ _ _ _ hg]
      exact ⟨Nat.le_refl _, fun h => by rw [hg] at h; exact h, id, [], by simp, by simp⟩
    · have hle := readLine_rest_le input line
      by_cases he : (ReadLine input line).2.isEmpty = true
      · rw [readText_break _ _ _ _ hg he]
        exact ⟨hle, fun _ => rfl, fun hi => readLine_failAtEof input line hi, [], by simp,
          by simp⟩
      · rw [readText_step _ _ _ _ hg he]
        obtain ⟨h1, h2, h3, lines, hl, ht⟩ := ih (ReadLine input line).1 (ReadLine input line).2
          (text ++ ((ReadLine input line).2 ++ ['\n']))
        refine ⟨by omega, fun _ => rfl, fun hi => h3 (readLine_failAtEof input line hi),
          (ReadLine input line).2 :: lines, ?_, ?_⟩
        · intro l hlm
          rcases List.mem_cons.mp hlm with rfl | hlm
          · exact ⟨by simpa using he, readLine_line_no_newline input line hg⟩
          · exact hl l hlm
        · rw [ht]
          simp

/-- The loop that collects the text is left by its condition or its `break`:
with `input.rest.length + 1` iterations or more the result is the same. -/
theorem readText_fuel (fuel fuel' : Nat) (input : IStream) (line text : List Char)
    (hf : input.rest.length + 1 ≤ fuel) (hf' : input.rest.length + 1 ≤ fuel') :
    readText fuel input line text = readText fuel' input line text := by
  induction fuel generalizing fuel' input line text with
  | zero => omega
  | succ f ih =>
    cases fuel' with
    | zero => omega
    | succ f' =>
      cases hg : input.good
      · rw [readText_stop _ _ _ _ hg, readText_stop _ _ _ _ hg]
      · by_cases he : (ReadLine input line).2.isEmpty = true
        · rw [readText_break _ _ _ _ hg he, readText_break _ _ _ _ hg he]
        · rw [readText_step _ _ _ _ hg he, readText_step _ _ _ _ hg he]
          cases hg' : (ReadLine input line).1.good
          · rw [readText_stop _ _ _ _ hg', readText_stop _ _ _ _ hg']
          · have := (readLine_good input line hg').2
            exact ih f' _ _ _ (by omega) (by omega)

theorem stoul_ok {str : List Char} {v p : Nat} (h : stoul str = .ok (v, p)) :
    stoul.digits str ≠ [] ∧ digitsValue (stoul.digits str) ≤ ULONG_MAX ∧
    v = (if (stoul.afterSpace str).head? = some '-' then
        (ULONG_MAX + 1 - digitsValue (stoul.digits str)) % (ULONG_MAX + 1)
      else digitsValue (stoul.digits str)) ∧
    p = (str.takeWhile isspace).length + stoul.signLength str + (stoul.digits str).length := by
  unfold stoul at h
  split at h
  · simp [throw, throwThe, MonadExceptOf.throw] at h
  · next hne =>
    split at h
    · simp [throw, throwThe, MonadExceptOf.throw] at h
    · next hle =>
      simp only [pure, Except.pure, Except.ok.injEq, Prod.mk.injEq] at h
      exact ⟨by simpa using hne, by omega, h.1.symm, h.2.symm⟩

theorem stoul_le {str : List Char} {v p : Nat} (h : stoul str = .ok (v, p)) :
    v ≤ ULONG_MAX := by
  obtain ⟨-, hle, hv, -⟩ := stoul_ok h
  rw [hv]
  split
  · have hpos : 0 < ULONG_MAX + 1 := by omega
    have := Nat.mod_lt (ULONG_MAX + 1 - digitsValue (stoul.digits str)) hpos
    omega
  · exact hle

/-- A record `ReadSubtitle` accepts keeps the expected id, has a valid range
and a text of non-empty lines; the stream has moved forward. -/
theorem readSubtitle_true_props (input i' : IStream) (s s' : CSubtitle)
    (h : ReadSubtitle input s = .ok (true, i', s')) :
    s'.id = s.id ∧ RecordOK s' ∧
    i'.rest.length ≤ input.rest.length ∧
    (i'.good = true → input.good = true ∧ i'.rest.length < input.rest.length) ∧
    (input.FailAtEof → i'.FailAtEof) := by
  obtain ⟨i0, line, i1, tline, subTimes, b, e, pb, pe, text, h0, hline, hst, hid, h1, -, -, -,
    hlt, ht, htext, hs'⟩ := readSubtitle_true input i' s s' h
  have hs0 := skipEmptyLines_props (input.rest.length + 1) input []
  rw [h0] at hs0
  obtain ⟨s01, s02, s03, s04⟩ := hs0
  have hr1a := readLine_rest_le i0 line
  have hr1b := readLine_good i0 line
  have hr1c := readLine_failAtEof i0 line
  rw [h1] at hr1a hr1b hr1c
  have hrt := readText_props (i1.rest.length + 1) i1 tline []
  rw [ht] at hrt
  obtain ⟨t1, t2, t3, lines, hl, htxt⟩ := hrt
  subst hs'
  refine ⟨rfl, ⟨hlt, htext, ⟨lines, hl, by simpa using htxt⟩, Nat.pos_of_ne_zero hid,
    stoul_le hst⟩, ?_, ?_, ?_⟩
  · simp only at s01 hr1a t1 ⊢
    omega
  · intro hg
    have hg1 := t2 hg
    have hg0 := (hr1b hg1).1
    have := s04 rfl hline hg0
    simp only at s01 hr1a t1 this ⊢
    exact ⟨s02 hg0, by omega⟩
  · intro hi
    exact t3 (hr1c (s03 hi))


/-! ## Read: lemmas -/

theorem skipEmptyLines_stop (fuel : Nat) (input : IStream) (line : List Char)
    (h : (input.good && line.isEmpty) = false) :
    skipEmptyLines fuel input line = (input, line) := by
  cases fuel with
  | zero => rfl
  | succ f =>
    rw [skipEmptyLines, if_neg (by simp [h])]

theorem skipEmptyLines_step (fuel : Nat) (input : IStream) (line : List Char)
    (h : (input.good && line.isEmpty) = true) :
    skipEmptyLines (fuel + 1) input line =
      skipEmptyLines fuel (ReadLine input line).1 (ReadLine input line).2 := by
  rw [skipEmptyLines, if_pos h]

theorem readSubtitle_empty_line (input : IStream) (s : CSubtitle)
    (h : (skipEmptyLines (input.rest.length + 1) input []).2 = []) :
    ReadSubtitle input s =
      .ok (false, (skipEmptyLines (input.rest.length + 1) input []).1, s) := by
  unfold ReadSubtitle
  dsimp only
  rw [if_pos (by simp [h])]
  rfl

theorem read_loop_stop (fuel : Nat) (input : IStream) (subs : List CSubtitle)
    (h : input.good = false) : Read.loop fuel input subs = .ok (input, subs) := by
  cases fuel with
  | zero => rfl
  | succ f =>
    rw [Read.loop, if_neg (by simp [h])]
    rfl

theorem read_loop_step (fuel : Nat) (input : IStream) (subs : List CSubtitle)
    (h : input.good = true) :
    Read.loop (fuel + 1) input subs =
      match ReadSubtitle input ⟨subs.length + 1, ⟨0, 1⟩, ""⟩ with
      | .error e => .error e
      | .ok (false, i1, s1) => .ok (i1, subs ++ [s1])
      | .ok (true, i1, s1) => Read.loop fuel i1 (subs ++ [s1]) := by
  rw [Read.loop, if_pos h, CSubtitle.new_eq]
  simp only [bind, Except.bind]
  cases hr : ReadSubtitle input ⟨subs.length + 1, ⟨0, 1⟩, ""⟩ with
  | error e => rfl
  | ok r =>
    obtain ⟨ok, i1, s1⟩ := r
    cases ok <;> simp [pure, Except.pure]

/-- When the first `ReadSubtitle` returns `false`, `Read` returns whether
`eofbit` is set, and no record. -/
theorem read_first_rejected (input i1 : IStream) (s1 : CSubtitle)
    (hg : input.good = true)
    (h : ReadSubtitle input ⟨1, ⟨0, 1⟩, ""⟩ = .ok (false, i1, s1)) :
    Read input = .ok (i1.eof, i1, []) := by
  unfold Read
  rw [read_loop_step _ _ _ hg]
  simp only [List.length_nil, Nat.zero_add, h, List.nil_append, bind, Except.bind]
  cases he : i1.eof <;> simp [he, pure, Except.pure]

theorem read_not_good (input : IStream) (hg : input.good = false) :
    Read input = .ok (false, input, []) := by
  unfold Read
  rw [read_loop_stop _ _ _ hg]
  rfl

/-- The loop of `Read`: the vector it leaves is the vector it was given, then
the records accepted, then, when `ReadSubtitle` returned `false`, the subtitle
that was rejected; without that last subtitle the loop ended at the end of the
input. -/
theorem read_loop_spec (fuel : Nat) (input i' : IStream) (subs S : List CSubtitle)
    (h : Read.loop fuel input subs = .ok (i', S)) :
    ∃ acc, AcceptedAfter subs.length acc ∧
      ((S = subs ++ acc ∧
          (input.rest.length + 1 ≤ fuel → input.FailAtEof → i'.eof = true)) ∨
        ∃ ph, S = subs ++ acc ++ [ph]) := by
  induction fuel generalizing input subs with
  | zero =>
    simp only [Read.loop, pure, Except.pure, Except.ok.injEq, Prod.mk.injEq] at h
    exact ⟨[], ⟨rfl, by simp⟩, Or.inl ⟨by simp [h.2], by omega⟩⟩
  | succ f ih =>
    cases hg : input.good
    · rw [read_loop_stop _ _ _ hg] at h
      simp only [Except.ok.injEq, Prod.mk.injEq] at h
      refine ⟨[], ⟨rfl, by simp⟩, Or.inl ⟨by simp [h.2], ?_⟩⟩
      intro _ hi
      rw [← h.1]
      exact IStream.eof_of_not_good hi hg
    · rw [read_loop_step _ _ _ hg] at h
      cases hr : ReadSubtitle input ⟨subs.length + 1, ⟨0, 1⟩, ""⟩ with
      | error e => rw [hr] at h; cases h
      | ok r =>
        obtain ⟨ok, i1, s1⟩ := r
        rw [hr] at h
        cases ok
        · simp only [Except.ok.injEq, Prod.mk.injEq] at h
          exact ⟨[], ⟨rfl, by simp⟩, Or.inr ⟨s1, by simp [h.2]⟩⟩
        · simp only at h
          obtain ⟨hid, hok, hle, hgood, hinv⟩ := readSubtitle_true_props _ _ _ _ hr
          obtain ⟨acc, ⟨hids, hrec⟩, hS⟩ := ih i1 (subs ++ [s1]) h
          have hacc : AcceptedAfter subs.length (s1 :: acc) := by
            constructor
            · simp only [List.map_cons, List.length_cons, hid]
              rw [List.range'_succ]
              simpa using hids
            · intro r hr'
              rcases List.mem_cons.mp hr' with rfl | hr'
              · exact hok
              · exact hrec r hr'
          refine ⟨s1 :: acc, hacc, ?_⟩
          rcases hS with ⟨hS1, hS2⟩ | ⟨ph, hS1⟩
          · refine Or.inl ⟨by simp [hS1], ?_⟩
            intro hf hi
            cases hg1 : i1.good
            · rw [read_loop_stop _ _ _ hg1] at h
              simp only [Except.ok.injEq, Prod.mk.injEq] at h
              rw [← h.1]
              exact IStream.eof_of_not_good (hinv hi) hg1
            · have := (hgood hg1).2
              exact hS2 (by omega) (hinv hi)
          · exact Or.inr ⟨ph, by simp [hS1]⟩

theorem take_range_from (k s n : Nat) :
    (List.range' s n).take k = List.range' s (min k n) := by
  induction k generalizing s n with
  | zero => simp
  | succ k ih =>
    cases n with
    | zero => simp
    | succ n => simp [List.range'_succ, ih, Nat.succ_min_succ]

/-- The track `Read` leaves, whatever it returns: the ids are `1, 2, ...` by
position and every record is as `ReadSubtitle` leaves an accepted record. -/
theorem read_records_ok (input i' : IStream) (ok : Bool) (T : List CSubtitle)
    (h : Read input = .ok (ok, i', T)) :
    T.map (·.id) = List.range' 1 T.length ∧ ∀ r ∈ T, RecordOK r := by
  unfold Read at h
  cases hl : Read.loop (input.rest.length + 1) input [] with
  | error e => simp [hl, bind, Except.bind] at h
  | ok r =>
    obtain ⟨i1, S⟩ := r
    obtain ⟨acc, ⟨hids, hrec⟩, hS⟩ := read_loop_spec _ _ _ _ _ hl
    have hT : T = S.dropLast := by
      simp only [hl, bind, Except.bind] at h
      split at h
      · next he =>
        simp only [pure, Except.pure, Except.ok.injEq, Prod.mk.injEq] at h
        rw [← h.2.2]
        simp only [List.isEmpty_iff] at he
        simp [he]
      · split at h <;>
          (simp only [pure, Except.pure, Except.ok.injEq, Prod.mk.injEq] at h; exact h.2.2.symm)
    have hpre : ∃ k, T = acc.take k := by
      rcases hS with ⟨hS1, -⟩ | ⟨ph, hS1⟩
      · refine ⟨acc.length - 1, ?_⟩
        rw [hT, hS1, List.nil_append, List.dropLast_eq_take]
      · refine ⟨acc.length, ?_⟩
        rw [hT, hS1, List.nil_append, List.dropLast_concat, List.take_length]
    obtain ⟨k, hk⟩ := hpre
    subst hk
    constructor
    · rw [List.map_take, hids]
      simp only [List.length_nil, Nat.zero_add, List.length_take]
      rw [take_range_from]
    · intro r hr
      exact hrec r (List.mem_of_mem_take hr)


theorem IStream.failAtEof_of_good {input : IStream} (h : input.good = true) :
    input.FailAtEof := by
  intro hf
  simp [IStream.good, hf] at h

/-- When the first record is accepted and `Read` returns failure, the track is
not empty. -/
theorem read_first_accepted (input i1 i' : IStream) (s1 : CSubtitle) (T : List CSubtitle)
    (hg : input.good = true)
    (h1 : ReadSubtitle input ⟨1, ⟨0, 1⟩, ""⟩ = .ok (true, i1, s1))
    (h : Read input = .ok (false, i', T)) : T ≠ [] := by
  obtain ⟨-, -, -, hgood, hinv⟩ := readSubtitle_true_props _ _ _ _ h1
  have hi1 : i1.FailAtEof := hinv (IStream.failAtEof_of_good hg)
  unfold Read at h
  rw [read_loop_step _ _ _ hg] at h
  simp only [List.length_nil, Nat.zero_add, h1, List.nil_append] at h
  cases hl : Read.loop input.rest.length i1 [s1] with
  | error e => simp [hl, bind, Except.bind] at h
  | ok r =>
    obtain ⟨i2, S⟩ := r
    obtain ⟨acc, -, hS⟩ := read_loop_spec _ _ _ _ _ hl
    have heof : S = [s1] → i2.eof = true := by
      intro hS1
      cases hg1 : i1.good
      · rw [read_loop_stop _ _ _ hg1] at hl
        simp only [Except.ok.injEq, Prod.mk.injEq] at hl
        rw [← hl.1]
        exact IStream.eof_of_not_good hi1 hg1
      · rcases hS with ⟨-, hS2⟩ | ⟨ph, hS2⟩
        · have := (hgood hg1).2
          exact hS2 (by omega) hi1
        · rw [hS1] at hS2
          have := congrArg List.length hS2
          simp at this
    simp only [hl, bind, Except.bind] at h
    have hne : S ≠ [] := by
      rcases hS with ⟨hS1, -⟩ | ⟨ph, hS1⟩ <;> simp [hS1]
    rw [if_neg (by simpa using hne)] at h
    split at h
    · next he =>
      simp only [pure, Except.pure, Except.ok.injEq, Prod.mk.injEq, true_and] at h
      rw [← h.2]
      intro hd
      have hS1 : S = [s1] := by
        rcases hS with ⟨hS1, -⟩ | ⟨ph, hS1⟩
        · rw [hS1] at hd ⊢
          cases acc with
          | nil => rfl
          | cons a acc => simp [List.dropLast] at hd
        · rw [hS1] at hd
          have := congrArg List.length hd
          simp at this
      rw [heof hS1] at he
      simp at he
    · simp [pure, Except.pure] at h

/-! ## The bounds on the iterations are enough -/

/-- With `input.rest.length + 1` iterations or more the loop over the empty
lines gives the same result. -/
theorem skipEmptyLines_fuel (fuel fuel' : Nat) (input : IStream) (line : List Char)
    (hf : input.rest.length + 1 ≤ fuel) (hf' : input.rest.length + 1 ≤ fuel') :
    skipEmptyLines fuel input line = skipEmptyLines fuel' input line := by
  induction fuel generalizing fuel' input line with
  | zero => omega
  | succ f ih =>
    cases fuel' with
    | zero => omega
    | succ f' =>
      cases hc : (input.good && line.isEmpty)
      · rw [skipEmptyLines_stop _ _ _ hc, skipEmptyLines_stop _ _ _ hc]
      · rw [skipEmptyLines_step _ _ _ hc, skipEmptyLines_step _ _ _ hc]
        cases hg : (ReadLine input line).1.good
        · rw [skipEmptyLines_stop _ _ _ (by simp [hg]), skipEmptyLines_stop _ _ _ (by simp [hg])]
        · have := (readLine_good input line hg).2
          exact ih f' _ _ (by omega) (by omega)

/-- With `input.rest.length + 1` iterations or more the loop of `Read` gives
the same result. -/
theorem read_loop_fuel (fuel fuel' : Nat) (input : IStream) (subs : List CSubtitle)
    (hf : input.rest.length + 1 ≤ fuel) (hf' : input.rest.length + 1 ≤ fuel') :
    Read.loop fuel input subs = Read.loop fuel' input subs := by
  induction fuel generalizing fuel' input subs with
  | zero => omega
  | succ f ih =>
    cases fuel' with
    | zero => omega
    | succ f' =>
      cases hg : input.good
      · rw [read_loop_stop _ _ _ hg, read_loop_stop _ _ _ hg]
      · rw [read_loop_step _ _ _ hg, read_loop_step _ _ _ hg]
        cases hr : ReadSubtitle input ⟨subs.length + 1, ⟨0, 1⟩, ""⟩ with
        | error e => rfl
        | ok r =>
          obtain ⟨ok, i1, s1⟩ := r
          cases ok
          · rfl
          · dsimp only
            obtain ⟨-, -, -, hgood, -⟩ := readSubtitle_true_props _ _ _ _ hr
            cases hg1 : i1.good
            · rw [read_loop_stop _ _ _ hg1, read_loop_stop _ _ _ hg1]
            · have := (hgood hg1).2
              exact ih f' _ _ (by omega) (by omega)

/-! ## Read: claims -/

/-- C14, the claim refuted: on the completely empty input `Read` returns
success, with a track of zero records. -/
theorem C14_empty_input_succeeds :
    Read (IStream.ofString "") = .ok (true, ⟨[], true, true⟩, []) ∧
    Read (IStream.ofString "\n\r\n\n") = .ok (true, ⟨[], true, true⟩, []) := by
  decide

theorem skipEmptyLines_blankOnly (cs : List Char) (h : blankOnly cs = true) (fuel : Nat)
    (hf : cs.length + 1 ≤ fuel) :
    ∃ fb, skipEmptyLines fuel ⟨cs, false, false⟩ [] = (⟨[], true, fb⟩, []) := by
  induction cs using blankOnly.induct generalizing fuel with
  | case1 =>
    cases fuel with
    | zero => omega
    | succ f =>
      refine ⟨true, ?_⟩
      rw [skipEmptyLines_step _ _ _ (by rfl)]
      exact skipEmptyLines_stop _ _ _ (by rfl)
  | case2 c =>
    cases fuel with
    | zero => omega
    | succ f =>
      cases f with
      | zero => simp at hf
      | succ f =>
        simp only [blankOnly, Bool.or_eq_true, decide_eq_true_eq] at h
        rcases h with rfl | rfl
        · refine ⟨true, ?_⟩
          rw [skipEmptyLines_step _ _ _ (by rfl), skipEmptyLines_step _ _ _ (by rfl)]
          exact skipEmptyLines_stop _ _ _ (by rfl)
        · refine ⟨false, ?_⟩
          rw [skipEmptyLines_step _ _ _ (by rfl)]
          exact skipEmptyLines_stop _ _ _ (by rfl)
  | case3 d ds ih =>
    cases fuel with
    | zero => omega
    | succ f =>
      simp only [blankOnly, if_true] at h
      obtain ⟨fb, hfb⟩ := ih h f (by simp at hf ⊢; omega)
      refine ⟨fb, ?_⟩
      rw [skipEmptyLines_step _ _ _ (by rfl)]
      have hrl : ReadLine ⟨'\n' :: d :: ds, false, false⟩ [] = (⟨d :: ds, false, false⟩, []) := by
        simp [ReadLine, getline, IStream.good, splitLine]
      rw [hrl]
      exact hfb
  | case4 c d ds hc ih =>
    cases fuel with
    | zero => omega
    | succ f =>
      simp only [blankOnly, hc, if_false, Bool.and_eq_true, decide_eq_true_eq] at h
      obtain ⟨⟨rfl, rfl⟩, hds⟩ := h
      obtain ⟨fb, hfb⟩ := ih hds f (by simp at hf ⊢; omega)
      refine ⟨fb, ?_⟩
      rw [skipEmptyLines_step _ _ _ (by rfl)]
      have hrl : ReadLine ⟨'\r' :: '\n' :: ds, false, false⟩ [] = (⟨ds, false, false⟩, []) := by
        simp [ReadLine, getline, IStream.good, splitLine]
      rw [hrl]
      exact hfb

/-- C14, amended: `Read` returns failure when the stream is not good at the
call, and when its first record is rejected before the end of the input is
reached; on an input that is completely empty or has only blank lines it
returns success with a track of zero records. -/
theorem C14_read_without_records :
    (∀ input : IStream, input.good = false → Read input = .ok (false, input, [])) ∧
    (∀ (input i1 : IStream) (s1 : CSubtitle), input.good = true →
      ReadSubtitle input ⟨1, ⟨0, 1⟩, ""⟩ = .ok (false, i1, s1) → i1.eof = false →
      Read input = .ok (false, i1, [])) ∧
    (∀ text : String, blankOnly text.data = true →
      ∃ i1, Read (IStream.ofString text) = .ok (true, i1, [])) := by
  refine ⟨read_not_good, ?_, ?_⟩
  · intro input i1 s1 hg h he
    rw [read_first_rejected input i1 s1 hg h, he]
  · intro text hb
    obtain ⟨fb, hfb⟩ := skipEmptyLines_blankOnly text.data hb (text.data.length + 1)
      (Nat.le_refl _)
    have hrs : ReadSubtitle (IStream.ofString text) ⟨1, ⟨0, 1⟩, ""⟩ =
        .ok (false, ⟨[], true, fb⟩, ⟨1, ⟨0, 1⟩, ""⟩) := by
      have := readSubtitle_empty_line (IStream.ofString text) ⟨1, ⟨0, 1⟩, ""⟩
        (by show (skipEmptyLines (text.data.length + 1) ⟨text.data, false, false⟩ []).2 = []
            rw [hfb])
      rw [this]
      show Except.ok (false, (skipEmptyLines (text.data.length + 1)
        ⟨text.data, false, false⟩ []).1, _) = _
      rw [hfb]
    exact ⟨_, read_first_rejected (IStream.ofString text) _ _ rfl hrs⟩

theorem C14_read_without_records_witness :
    (IStream.mk "1\n".data false true).good = false ∧
    Read ⟨"1\n".data, false, true⟩ = .ok (false, ⟨"1\n".data, false, true⟩, []) ∧
    Read (IStream.ofString "7\n00:00:01,000 --> 00:00:02,000\nHi\n\n") =
      .ok (false, ⟨"00:00:01,000 --> 00:00:02,000\nHi\n\n".data, false, false⟩, []) ∧
    blankOnly "\n\r\n\n".data = true ∧
    ∃ i1, Read (IStream.ofString "\n\r\n\n") = .ok (true, i1, []) :=
  ⟨by decide, C14_read_without_records.1 _ (by decide),
    C14_read_without_records.2.1 (IStream.ofString "7\n00:00:01,000 --> 00:00:02,000\nHi\n\n")
      _ ⟨1, ⟨0, 1⟩, ""⟩ (by decide) (by decide) (by decide),
    by decide, C14_read_without_records.2.2 "\n\r\n\n" (by decide)⟩

/-- C15, the code at the failing inputs: after one well-formed record, a
record that is broken or truncated and ends the input (an id line `7`, an id
line `2` alone, a time line with `begin >= end`, a record without text) does
not make `Read` fail: `Read` returns success with the first record. -/
theorem C15_broken_last_record_accepted :
    Read (IStream.ofString "1\n00:00:01,000 --> 00:00:02,000\nHi\n\n7") =
      .ok (true, ⟨[], true, false⟩, [⟨1, ⟨1000, 2000⟩, "Hi\n"⟩]) ∧
    Read (IStream.ofString "1\n00:00:01,000 --> 00:00:02,000\nHi\n\n2") =
      .ok (true, ⟨[], true, true⟩, [⟨1, ⟨1000, 2000⟩, "Hi\n"⟩]) ∧
    Read (IStream.ofString
        "1\n00:00:01,000 --> 00:00:02,000\nHi\n\n2\n00:00:05,000 --> 00:00:04,000") =
      .ok (true, ⟨[], true, false⟩, [⟨1, ⟨1000, 2000⟩, "Hi\n"⟩]) ∧
    Read (IStream.ofString
        "1\n00:00:01,000 --> 00:00:02,000\nHi\n\n2\n00:00:03,000 --> 00:00:04,000\n") =
      .ok (true, ⟨[], true, true⟩, [⟨1, ⟨1000, 2000⟩, "Hi\n"⟩]) := by
  decide

/-- C16, the code at the failing inputs: an id line `+1`, or ` 1` with a
leading space, is accepted for the record with expected id 1. -/
theorem C16_sign_and_space_accepted :
    ReadSubtitle (IStream.ofString "+1\n00:00:01,000 --> 00:00:02,000\nHi\n\n")
        ⟨1, ⟨0, 1⟩, ""⟩ =
      .ok (true, ⟨[], false, false⟩, ⟨1, ⟨1000, 2000⟩, "Hi\n"⟩) ∧
    ReadSubtitle (IStream.ofString " 1\n00:00:01,000 --> 00:00:02,000\nHi\n\n")
        ⟨1, ⟨0, 1⟩, ""⟩ =
      .ok (true, ⟨[], false, false⟩, ⟨1, ⟨1000, 2000⟩, "Hi\n"⟩) := by
  decide

theorem acceptedRun_good (input last : IStream) (n : Nat) (acc : List CSubtitle)
    (h : AcceptedRun input n acc last) (hl : last.good = true) : input.good = true := by
  cases acc with
  | nil =>
    simp only [AcceptedRun] at h
    rw [← h]
    exact hl
  | cons r acc => exact h.1

theorem read_loop_run (fuel : Nat) (input i' : IStream) (subs S : List CSubtitle)
    (hfuel : input.good = true → input.rest.length + 1 ≤ fuel)
    (hinv : input.FailAtEof)
    (h : Read.loop fuel input subs = .ok (i', S)) :
    (∃ acc last ph, S = subs ++ acc ++ [ph] ∧ AcceptedRun input subs.length acc last ∧
      last.good = true ∧
      ReadSubtitle last ⟨subs.length + acc.length + 1, ⟨0, 1⟩, ""⟩ = .ok (false, i', ph)) ∨
    (∃ acc, S = subs ++ acc ∧ i'.good = false ∧ i'.FailAtEof ∧ (acc = [] → i' = input)) := by
  induction fuel generalizing input subs with
  | zero =>
    cases hg : input.good
    · rw [read_loop_stop _ _ _ hg] at h
      simp only [Except.ok.injEq, Prod.mk.injEq] at h
      right
      refine ⟨[], by simp [h.2], ?_, ?_, fun _ => h.1.symm⟩
      · rw [← h.1]; exact hg
      · rw [← h.1]; exact hinv
    · have := hfuel hg
      omega
  | succ f ih =>
    cases hg : input.good
    · rw [read_loop_stop _ _ _ hg] at h
      simp only [Except.ok.injEq, Prod.mk.injEq] at h
      right
      refine ⟨[], by simp [h.2], ?_, ?_, fun _ => h.1.symm⟩
      · rw [← h.1]; exact hg
      · rw [← h.1]; exact hinv
    · rw [read_loop_step _ _ _ hg] at h
      cases h1 : ReadSubtitle input ⟨subs.length + 1, ⟨0, 1⟩, ""⟩ with
      | error e => simp [h1] at h
      | ok r =>
        obtain ⟨ok, i1, s1⟩ := r
        cases ok
        · simp only [h1, Except.ok.injEq, Prod.mk.injEq] at h
          left
          refine ⟨[], input, s1, by simp [h.2], rfl, hg, ?_⟩
          rw [← h.1]
          simpa using h1
        · simp only [h1] at h
          obtain ⟨-, -, -, hgood, hpres⟩ := readSubtitle_true_props _ _ _ _ h1
          have hf1 : i1.good = true → i1.rest.length + 1 ≤ f := by
            intro hg1
            have h2 := (hgood hg1).2
            have h3 := hfuel hg
            omega
          rcases ih i1 (subs ++ [s1]) hf1 (hpres hinv) h with
            ⟨acc, last, ph, hS, hrun, hlast, hrej⟩ | ⟨acc, hS, hng, hfe, -⟩
          · left
            refine ⟨s1 :: acc, last, ph, by simp [hS], ⟨hg, i1, h1, ?_⟩, hlast, ?_⟩
            · simpa using hrun
            · have e : subs.length + (s1 :: acc).length + 1 =
                  (subs ++ [s1]).length + acc.length + 1 := by
                simp only [List.length_cons, List.length_append, List.length_nil]
                omega
              rw [e]
              exact hrej
          · right
            exact ⟨s1 :: acc, by simp [hS], hng, hfe, fun hc => by cases hc⟩

theorem read_loop_of_run (acc : List CSubtitle) (fuel : Nat) (input last i' : IStream)
    (subs : List CSubtitle) (ph : CSubtitle)
    (hfuel : input.rest.length + 1 ≤ fuel)
    (hrun : AcceptedRun input subs.length acc last)
    (hlast : last.good = true)
    (hrej : ReadSubtitle last ⟨subs.length + acc.length + 1, ⟨0, 1⟩, ""⟩ = .ok (false, i', ph)) :
    Read.loop fuel input subs = .ok (i', subs ++ acc ++ [ph]) := by
  induction acc generalizing fuel input subs with
  | nil =>
    simp only [AcceptedRun] at hrun
    subst hrun
    obtain ⟨f, rfl⟩ : ∃ f, fuel = f + 1 := ⟨fuel - 1, by omega⟩
    rw [read_loop_step _ _ _ hlast]
    simp only [List.length_nil, Nat.add_zero] at hrej
    simp [hrej]
  | cons r acc ih =>
    obtain ⟨hg, i1, h1, hrun1⟩ := hrun
    obtain ⟨f, rfl⟩ : ∃ f, fuel = f + 1 := ⟨fuel - 1, by omega⟩
    rw [read_loop_step _ _ _ hg]
    simp only [h1]
    have hg1 : i1.good = true := acceptedRun_good _ _ _ _ hrun1 hlast
    obtain ⟨-, -, -, hgood, -⟩ := readSubtitle_true_props _ _ _ _ h1
    have h2 := (hgood hg1).2
    have e : (subs ++ [r]).length + acc.length + 1 =
        subs.length + (r :: acc).length + 1 := by
      simp only [List.length_cons, List.length_append, List.length_nil]
      omega
    have := ih f i1 (subs ++ [r]) (by omega) (by simpa using hrun1) (by rw [e]; exact hrej)
    rw [this]
    simp

theorem read_failed_iff (input i' : IStream) (T : List CSubtitle) :
    Read input = .ok (false, i', T) ↔
      ((input.good = false ∧ i' = input ∧ T = []) ∨
        ∃ last ph, AcceptedRun input 0 T last ∧ last.good = true ∧
          ReadSubtitle last ⟨T.length + 1, ⟨0, 1⟩, ""⟩ = .ok (false, i', ph) ∧
          i'.eof = false) := by
  constructor
  · intro h
    cases hg : input.good
    · rw [read_not_good _ hg] at h
      simp only [Except.ok.injEq, Prod.mk.injEq, true_and] at h
      exact Or.inl ⟨rfl, h.1.symm, h.2.symm⟩
    · right
      unfold Read at h
      cases hl : Read.loop (input.rest.length + 1) input [] with
      | error e => simp [hl, bind, Except.bind] at h
      | ok r =>
        obtain ⟨i2, S⟩ := r
        simp only [hl, bind, Except.bind] at h
        rcases read_loop_run _ _ _ _ _ (fun _ => Nat.le_refl _)
            (IStream.failAtEof_of_good hg) hl with
          ⟨acc, last, ph, hS, hrun, hlast, hrej⟩ | ⟨acc, hS, hng, hfe, hnil⟩
        · simp only [List.nil_append] at hS
          simp only [List.length_nil, Nat.zero_add] at hrun hrej
          subst hS
          rw [if_neg (by simp)] at h
          split at h
          · next he =>
            simp only [pure, Except.pure, Except.ok.injEq, Prod.mk.injEq, true_and,
              List.dropLast_concat] at h
            obtain ⟨hi, hT⟩ := h
            subst hi hT
            refine ⟨last, ph, hrun, hlast, hrej, ?_⟩
            simpa [IStream.eof] using he
          · simp [pure, Except.pure] at h
        · simp only [List.nil_append] at hS
          subst hS
          have heof : i2.eof = true := IStream.eof_of_not_good hfe hng
          cases S with
          | nil =>
            have := hnil rfl
            rw [this, hg] at hng
            cases hng
          | cons a S =>
            rw [if_neg (by simp)] at h
            simp [heof, pure, Except.pure] at h
  · rintro (⟨hg, hi, hT⟩ | ⟨last, ph, hrun, hlast, hrej, heof⟩)
    · rw [hi, hT]
      exact read_not_good _ hg
    · unfold Read
      have hrej1 : ReadSubtitle last ⟨([] : List CSubtitle).length + T.length + 1, ⟨0, 1⟩, ""⟩ =
          .ok (false, i', ph) := by
        simpa using hrej
      rw [read_loop_of_run T _ input last i' [] ph (Nat.le_refl _) hrun hlast hrej1]
      simp [bind, Except.bind, pure, Except.pure, heof]

/-- C17, the claim refuted: `Read` returns failure on an input whose second
record is broken, and the track then holds the first record. -/
theorem C17_failed_read_keeps_records :
    Read (IStream.ofString "1\n00:00:01,000 --> 00:00:02,000\nHi\n\nabc\n") =
      .ok (false, ⟨[], false, false⟩, [⟨1, ⟨1000, 2000⟩, "Hi\n"⟩]) := by
  decide

/-- C17, amended: `Read` returns failure, leaving the stream `i'` and the track
`T`, exactly when either the stream was not good at the call (then `T` is empty
and the stream untouched), or `T` is the list of the records that the
successive calls of `ReadSubtitle` accepted from the start of the input, one
after the other with the ids `1, 2, ...`, the next call (id `T.length + 1`, on
a good stream) returned `false`, and the stream it left is not at the end of
input. So the track of a failed `Read` holds every record accepted before the
rejected one, in order, and nothing else; these records have the ids
`1, 2, ...` by position, valid ranges and non-empty texts, and the track is
empty exactly when the stream was not good at the call or the first record was
rejected. -/
theorem C17_failed_read_track (input i' : IStream) (T : List CSubtitle) :
    (Read input = .ok (false, i', T) ↔
      ((input.good = false ∧ i' = input ∧ T = []) ∨
        ∃ last ph, AcceptedRun input 0 T last ∧ last.good = true ∧
          ReadSubtitle last ⟨T.length + 1, ⟨0, 1⟩, ""⟩ = .ok (false, i', ph) ∧
          i'.eof = false)) ∧
    (Read input = .ok (false, i', T) →
      T.map (·.id) = List.range' 1 T.length ∧
      (∀ r ∈ T, r.time.Valid ∧ r.text ≠ "") ∧
      (T = [] ↔ (input.good = false ∨
        ∃ i1 s1, ReadSubtitle input ⟨1, ⟨0, 1⟩, ""⟩ = .ok (false, i1, s1)))) := by
  refine ⟨read_failed_iff input i' T, ?_⟩
  intro h
  obtain ⟨hids, hrec⟩ := read_records_ok _ _ _ _ h
  refine ⟨hids, ?_, ?_⟩
  · intro r hr
    obtain ⟨hv, ht, -⟩ := hrec r hr
    refine ⟨hv, ?_⟩
    intro hempty
    rw [hempty] at ht
    exact ht rfl
  · constructor
    · intro hT
      cases hg : input.good
      · exact Or.inl rfl
      · right
        cases h1 : ReadSubtitle input ⟨1, ⟨0, 1⟩, ""⟩ with
        | error e =>
          unfold Read at h
          rw [read_loop_step _ _ _ hg] at h
          simp [h1, bind, Except.bind] at h
        | ok r =>
          obtain ⟨ok, i1, s1⟩ := r
          cases ok
          · exact ⟨i1, s1, rfl⟩
          · exact absurd hT (read_first_accepted _ _ _ _ _ hg h1 h)
    · rintro (hg | ⟨i1, s1, h1⟩)
      · rw [read_not_good _ hg] at h
        simp only [Except.ok.injEq, Prod.mk.injEq, true_and] at h
        exact h.2.symm
      · cases hg : input.good
        · rw [read_not_good _ hg] at h
          simp only [Except.ok.injEq, Prod.mk.injEq, true_and] at h
          exact h.2.symm
        · rw [read_first_rejected _ _ _ hg h1] at h
          simp only [Except.ok.injEq, Prod.mk.injEq] at h
          exact h.2.2.symm

theorem C17_failed_read_track_witness :
    Read (IStream.ofString
        "1\n00:00:01,000 --> 00:00:02,000\nHi\n\n2\n00:00:03,000 --> 00:00:04,000\nHo\n\nabc\n") =
      .ok (false, ⟨[], false, false⟩,
        [⟨1, ⟨1000, 2000⟩, "Hi\n"⟩, ⟨2, ⟨3000, 4000⟩, "Ho\n"⟩]) ∧
    (∃ last ph,
      AcceptedRun (IStream.ofString
        "1\n00:00:01,000 --> 00:00:02,000\nHi\n\n2\n00:00:03,000 --> 00:00:04,000\nHo\n\nabc\n")
        0 [⟨1, ⟨1000, 2000⟩, "Hi\n"⟩, ⟨2, ⟨3000, 4000⟩, "Ho\n"⟩] last ∧
      last.good = true ∧
      ReadSubtitle last ⟨3, ⟨0, 1⟩, ""⟩ = .ok (false, ⟨[], false, false⟩, ph)) ∧
    List.map (·.id) [CSubtitle.mk 1 ⟨1000, 2000⟩ "Hi\n", CSubtitle.mk 2 ⟨3000, 4000⟩ "Ho\n"] =
      List.range' 1 2 ∧
    [CSubtitle.mk 1 ⟨1000, 2000⟩ "Hi\n", CSubtitle.mk 2 ⟨3000, 4000⟩ "Ho\n"] ≠ [] :=
  ⟨by decide,
    ((C17_failed_read_track (IStream.ofString
        "1\n00:00:01,000 --> 00:00:02,000\nHi\n\n2\n00:00:03,000 --> 00:00:04,000\nHo\n\nabc\n")
      ⟨[], false, false⟩
      [⟨1, ⟨1000, 2000⟩, "Hi\n"⟩, ⟨2, ⟨3000, 4000⟩, "Ho\n"⟩]).1.mp (by decide)).elim
      (fun hn => absurd hn.1 (by decide))
      (fun ⟨last, ph, hrun, hlast, hrej, _⟩ => ⟨last, ph, hrun, hlast, hrej⟩),
    ((C17_failed_read_track (IStream.ofString
        "1\n00:00:01,000 --> 00:00:02,000\nHi\n\n2\n00:00:03,000 --> 00:00:04,000\nHo\n\nabc\n")
      ⟨[], false, false⟩
      [⟨1, ⟨1000, 2000⟩, "Hi\n"⟩, ⟨2, ⟨3000, 4000⟩, "Ho\n"⟩]).2 (by decide)).1,
    by decide⟩

/-- C19, the code at the failing inputs: a second line of the shape of the
time format with letters at the wildcard positions makes `ReadSubtitle` raise
the `std::invalid_argument` of `stoul` instead of returning `false`; and a
line with a letter after the first digits of a block is accepted, the block
being read up to the letter. -/
theorem C19_malformed_digits_raise :
    ReadSubtitle (IStream.ofString "1\nab:cd:ef,ghi --> 00:00:02,000\nHi\n\n")
        ⟨1, ⟨0, 1⟩, ""⟩ = .error Error.stoulInvalidArgument ∧
    Read (IStream.ofString "1\nab:cd:ef,ghi --> 00:00:02,000\nHi\n\n") =
      .error Error.stoulInvalidArgument ∧
    ReadSubtitle (IStream.ofString "1\n00:00:01,0x0 --> 00:00:02,000\nHi\n\n")
        ⟨1, ⟨0, 1⟩, ""⟩ =
      .ok (true, ⟨[], false, false⟩, ⟨1, ⟨10, 2000⟩, "Hi\n"⟩) := by
  decide


/-! ## Reading back what `Write` has written: numbers -/

theorem digitChar_isDigit : ∀ d, d < 10 →
    (Nat.digitChar d).isDigit = true ∧ (Nat.digitChar d).toNat - '0'.toNat = d := by
  decide

theorem isDigit_not_special (c : Char) (h : c.isDigit = true) :
    isspace c = false ∧ c ≠ '-' ∧ c ≠ '+' ∧ c ≠ '\n' ∧ c ≠ '\r' := by
  refine ⟨?_, ?_, ?_, ?_, ?_⟩
  · simp only [isspace, Bool.or_eq_false_iff, decide_eq_false_iff_not]
    refine ⟨⟨⟨⟨⟨?_, ?_⟩, ?_⟩, ?_⟩, ?_⟩, ?_⟩ <;> (rintro rfl; revert h; decide)
  all_goals (rintro rfl; revert h; decide)

theorem toDigits_all_digits (n : Nat) : ∀ c ∈ Nat.toDigits 10 n, c.isDigit = true := by
  induction n using Nat.strong_induction_on with
  | _ n ih =>
    rw [toDigits_eq]
    by_cases h : n < 10
    · simp only [h, if_true, List.mem_singleton]
      rintro c rfl
      exact (digitChar_isDigit n h).1
    · simp only [h, if_false, List.mem_append, List.mem_singleton]
      rintro c (hc | rfl)
      · exact ih (n / 10) (Nat.div_lt_self (by omega) (by decide)) c hc
      · exact (digitChar_isDigit (n % 10) (Nat.mod_lt _ (by decide))).1

theorem digitsValue_append (xs ys : List Char) :
    digitsValue (xs ++ ys) =
      ys.foldl (fun acc c => 10 * acc + (c.toNat - '0'.toNat)) (digitsValue xs) := by
  simp [digitsValue, List.foldl_append]

theorem digitsValue_toDigits (n : Nat) : digitsValue (Nat.toDigits 10 n) = n := by
  induction n using Nat.strong_induction_on with
  | _ n ih =>
    rw [toDigits_eq]
    by_cases h : n < 10
    · simp only [h, if_true, digitsValue, List.foldl_cons, List.foldl_nil]
      have := (digitChar_isDigit n h).2
      omega
    · simp only [h, if_false]
      rw [digitsValue_append, ih (n / 10) (Nat.div_lt_self (by omega) (by decide))]
      simp only [List.foldl_cons, List.foldl_nil]
      have := (digitChar_isDigit (n % 10) (Nat.mod_lt _ (by decide))).2
      omega

theorem digitsValue_replicate_zero (k : Nat) (ds : List Char) :
    digitsValue (List.replicate k '0' ++ ds) = digitsValue ds := by
  induction k with
  | zero => simp
  | succ k ih =>
    rw [List.replicate_succ, List.cons_append]
    unfold digitsValue at ih ⊢
    rw [List.foldl_cons]
    exact ih

/-- On a non-empty string of decimal digits `stoul` returns their value and the
length of the string. -/
theorem stoul_digits (ds : List Char) (hne : ds ≠ []) (hd : ∀ c ∈ ds, c.isDigit = true)
    (hle : digitsValue ds ≤ ULONG_MAX) :
    stoul ds = .ok (digitsValue ds, ds.length) := by
  obtain ⟨c, cs, rfl⟩ := List.exists_cons_of_ne_nil hne
  obtain ⟨hsp, hminus, hplus, -, -⟩ := isDigit_not_special c (hd c (List.mem_cons_self _ _))
  have hws : (c :: cs).takeWhile isspace = [] := by simp [List.takeWhile, hsp]
  have hafter : stoul.afterSpace (c :: cs) = c :: cs := by
    simp [stoul.afterSpace, List.dropWhile, hsp]
  have hsign : stoul.signLength (c :: cs) = 0 := by
    simp [stoul.signLength, hafter, hminus, hplus]
  have hdig : stoul.digits (c :: cs) = c :: cs := by
    rw [stoul.digits, hafter, hsign, List.drop_zero]
    exact List.takeWhile_eq_self_iff.mpr hd
  unfold stoul
  rw [hdig, hafter, hsign, hws]
  rw [if_neg (by simp), if_neg (by omega)]
  simp [pure, Except.pure, hminus]

theorem stoul_decimal (n : Nat) (h : n ≤ ULONG_MAX) :
    stoul (decimal n) = .ok (n, (decimal n).length) := by
  have hv := digitsValue_toDigits n
  have := stoul_digits (Nat.toDigits 10 n)
    (List.ne_nil_of_length_pos (toDigits_length_pos n)) (toDigits_all_digits n)
    (by rw [hv]; exact h)
  rw [hv] at this
  exact this

theorem decimalPadded_all_digits (n : Nat) :
    ∀ c ∈ decimalPadded 9 '0' n, c.isDigit = true := by
  intro c hc
  simp only [decimalPadded, List.leftpad, List.mem_append, List.mem_replicate] at hc
  rcases hc with ⟨-, rfl⟩ | hc
  · decide
  · exact toDigits_all_digits n c hc

theorem stoul_decimalPadded (n : Nat) (h : n < 10 ^ 9) :
    ∃ p, stoul (decimalPadded 9 '0' n) = .ok (n, p) := by
  have hv : digitsValue (decimalPadded 9 '0' n) = n := by
    rw [decimalPadded, List.leftpad, digitsValue_replicate_zero, digitsValue_toDigits]
  have hne : decimalPadded 9 '0' n ≠ [] := by
    apply List.ne_nil_of_length_pos
    have := decimalPadded_length_ge n
    omega
  have := stoul_digits _ hne (decimalPadded_all_digits n) (by
    rw [hv]
    have : (10 : Nat) ^ 9 ≤ ULONG_MAX := by decide
    omega)
  rw [hv] at this
  exact ⟨_, this⟩


/-! ## Reading back what `Write` has written: lines and records -/

theorem fill_loop_mem (fs text done : List Char) :
    ∀ c ∈ (Fill.loop done fs text).2, c ∈ done ∨ c ∈ fs ∨ c ∈ text := by
  induction fs generalizing text done with
  | nil =>
    intro c hc
    simp only [Fill.loop] at hc
    exact Or.inl hc
  | cons f fs ih =>
    intro c hc
    by_cases hf : f = '*'
    · subst hf
      cases text with
      | nil =>
        simp only [Fill.loop, if_true, List.mem_append] at hc
        rcases hc with hc | hc
        · exact Or.inl hc
        · exact Or.inr (Or.inl hc)
      | cons t ts =>
        simp only [Fill.loop, if_true] at hc
        rcases ih ts (done ++ [t]) c hc with h | h | h
        · simp only [List.mem_append, List.mem_singleton] at h
          rcases h with h | rfl
          · exact Or.inl h
          · exact Or.inr (Or.inr (List.mem_cons_self _ _))
        · exact Or.inr (Or.inl (List.mem_cons_of_mem _ h))
        · exact Or.inr (Or.inr (List.mem_cons_of_mem _ h))
    · simp only [Fill.loop, hf, if_false] at hc
      rcases ih text (done ++ [f]) c hc with h | h | h
      · simp only [List.mem_append, List.mem_singleton] at h
        rcases h with h | rfl
        · exact Or.inl h
        · exact Or.inr (Or.inl (List.mem_cons_self _ _))
      · exact Or.inr (Or.inl (List.mem_cons_of_mem _ h))
      · exact Or.inr (Or.inr h)

theorem timeLine_no_newline (r : CSubtitle) : '\n' ∉ timeLine r ∧ '\r' ∉ timeLine r := by
  have hmem : ∀ c ∈ timeLine r, c ∈ timeFormat ∨ c.isDigit = true := by
    intro c hc
    rcases fill_loop_mem timeFormat _ [] c hc with h | h | h
    · cases h
    · exact Or.inl h
    · right
      rcases List.mem_append.mp h with h | h
      · exact decimalPadded_all_digits _ c h
      · exact decimalPadded_all_digits _ c h
  constructor
  · intro h
    rcases hmem _ h with h | h
    · revert h; decide
    · revert h; decide
  · intro h
    rcases hmem _ h with h | h
    · revert h; decide
    · revert h; decide

theorem decimal_no_newline (n : Nat) : '\n' ∉ decimal n ∧ '\r' ∉ decimal n := by
  constructor
  · intro h
    have := toDigits_all_digits n _ h
    revert this; decide
  · intro h
    have := toDigits_all_digits n _ h
    revert this; decide

theorem getLast?_ne_of_not_mem {l : List Char} {c : Char} (h : c ∉ l) :
    l.getLast? ≠ some c := by
  intro hl
  exact h (List.mem_of_getLast?_eq_some hl)

/-- `ReadLine` on a stream that starts with a line without `\n` and without a
trailing `\r`, followed by `\n`. -/
theorem readLine_line (l rest line0 : List Char) (hnl : '\n' ∉ l)
    (hcr : l.getLast? ≠ some '\r') :
    ReadLine ⟨l ++ '\n' :: rest, false, false⟩ line0 = (⟨rest, false, false⟩, l) := by
  have hg : getline ⟨l ++ '\n' :: rest, false, false⟩ line0 = (⟨rest, false, false⟩, l) :=
    getline_some _ _ _ _ rfl (splitLine_append l rest hnl)
  unfold ReadLine
  dsimp only
  rw [hg, if_neg hcr]

theorem readText_lines (lines : List (List Char)) (tail : List Char)
    (hl : ∀ l ∈ lines, l ≠ [] ∧ '\n' ∉ l ∧ l.getLast? ≠ some '\r')
    (fuel : Nat) (hf : lines.length + 1 ≤ fuel) (line0 acc : List Char) :
    readText fuel ⟨(lines.map (· ++ ['\n'])).flatten ++ '\n' :: tail, false, false⟩ line0 acc =
      (⟨tail, false, false⟩, acc ++ (lines.map (· ++ ['\n'])).flatten) := by
  induction lines generalizing fuel line0 acc with
  | nil =>
    cases fuel with
    | zero => simp at hf
    | succ f =>
      have hrl : ReadLine ⟨'\n' :: tail, false, false⟩ line0 = (⟨tail, false, false⟩, []) :=
        readLine_line [] tail line0 (by simp) (by simp)
      simp only [List.map_nil, List.flatten_nil, List.nil_append, List.append_nil]
      rw [readText_break f ⟨'\n' :: tail, false, false⟩ line0 acc rfl (by rw [hrl]; rfl), hrl]
  | cons l lines ih =>
    cases fuel with
    | zero => simp at hf
    | succ f =>
      obtain ⟨hne, hnl, hcr⟩ := hl l (List.mem_cons_self _ _)
      have hstream : ((l :: lines).map (· ++ ['\n'])).flatten ++ '\n' :: tail =
          l ++ '\n' :: ((lines.map (· ++ ['\n'])).flatten ++ '\n' :: tail) := by
        simp
      rw [hstream]
      have hrl := readLine_line l ((lines.map (· ++ ['\n'])).flatten ++ '\n' :: tail) line0
        hnl hcr
      rw [readText_step f ⟨l ++ '\n' :: ((lines.map (· ++ ['\n'])).flatten ++ '\n' :: tail), false, false⟩
        line0 acc rfl (by rw [hrl]; simpa using hne), hrl]
      dsimp only
      rw [ih (fun x hx => hl x (List.mem_cons_of_mem _ hx)) f (by simp at hf; omega)]
      simp

/-- `ReadSubtitle` returns `true` with the record it has read when every step
goes through (the converse of `readSubtitle_true`). -/
theorem readSubtitle_of_steps (input i0 i1 i' : IStream) (s : CSubtitle)
    (line tline subTimes text : List Char) (b e pb pe : Nat)
    (h0 : skipEmptyLines (input.rest.length + 1) input [] = (i0, line))
    (hline : line ≠ []) (hst : stoul line = .ok (s.id, line.length)) (hid : s.id ≠ 0)
    (h1 : ReadLine i0 line = (i1, tline))
    (hc : CompareAndExtract timeFormat tline = (true, subTimes))
    (hlen : 9 ≤ subTimes.length)
    (hb : stoul (subTimes.take 9) = .ok (b, pb))
    (he : stoul ((subTimes.drop 9).take 9) = .ok (e, pe))
    (hlt : b < e)
    (ht : readText (i1.rest.length + 1) i1 tline [] = (i', text))
    (htext : text ≠ []) :
    ReadSubtitle input s = .ok (true, i', ⟨s.id, ⟨b, e⟩, ⟨text⟩⟩) := by
  unfold ReadSubtitle
  dsimp only
  rw [h0]
  dsimp only
  rw [if_neg (by simpa using hline), hst]
  dsimp only
  rw [if_neg (by simp [hid]), if_neg (by simp [CSubtitle.Id]), h1]
  dsimp only
  rw [hc]
  dsimp only
  rw [if_neg (by simp), substr_zero, substr_ok hlen]
  simp only [bind, Except.bind, hb, he]
  rw [if_neg (by simpa using hlt), ht]
  dsimp only
  rw [if_neg (by simpa using htext), CTimeRange.new_eq_ok hlt]
  rfl


theorem fill_then_extract (t s : List Char) (h : s.length = t.count '*') :
    ∃ r, Fill t s = (true, r) ∧ CompareAndExtract t r = (true, s) := by
  obtain ⟨r, hr, hlen, hce⟩ := fill_loop_spec t s [] h
  refine ⟨r, by simpa [Fill] using hr, ?_⟩
  simp [CompareAndExtract, hlen, hce]

theorem length_le_flatten_lines (lines : List (List Char)) :
    lines.length ≤ ((lines.map (· ++ ['\n'])).flatten).length := by
  induction lines with
  | nil => simp
  | cons l lines ih =>
    simp only [List.map_cons, List.flatten_cons, List.length_append, List.length_cons,
      List.length_nil]
    omega

/-- `ReadSubtitle` reads a rereadable record back from what `Write` writes for
it, and leaves the stream good at the characters that follow. -/
theorem readSubtitle_record (r : CSubtitle) (tail : List Char) (h : Rereadable r) :
    ReadSubtitle ⟨recordText r ++ tail, false, false⟩ ⟨r.id, ⟨0, 1⟩, ""⟩ =
      .ok (true, ⟨tail, false, false⟩, r) := by
  obtain ⟨hpos, hmax, hlt, hend, lines, hne, hl, htext⟩ := h
  have hbeg : r.time.beginTime < 10 ^ 9 := by omega
  have hpb := (decimalPadded_length_eq_iff r.time.beginTime).mpr hbeg
  have hpe := (decimalPadded_length_eq_iff r.time.endTime).mpr hend
  obtain ⟨tl, hfill, hce⟩ := fill_then_extract timeFormat
    (decimalPadded 9 '0' r.time.beginTime ++ decimalPadded 9 '0' r.time.endTime)
    (by rw [List.length_append, hpb, hpe, timeFormat_count])
  have htl : timeLine r = tl := by
    unfold timeLine
    rw [hfill]
  have hstream : recordText r ++ tail =
      decimal r.id ++ '\n' :: (tl ++ '\n' :: (r.text.data ++ '\n' :: tail)) := by
    simp [recordText, htl]
  obtain ⟨hd1, hd2⟩ := decimal_no_newline r.id
  obtain ⟨ht1, ht2⟩ := timeLine_no_newline r
  rw [htl] at ht1 ht2
  have hdne : decimal r.id ≠ [] := List.ne_nil_of_length_pos (toDigits_length_pos r.id)
  obtain ⟨pb, hsb⟩ := stoul_decimalPadded r.time.beginTime hbeg
  obtain ⟨pe, hse⟩ := stoul_decimalPadded r.time.endTime hend
  have hres := readSubtitle_of_steps ⟨recordText r ++ tail, false, false⟩
    ⟨tl ++ '\n' :: (r.text.data ++ '\n' :: tail), false, false⟩
    ⟨r.text.data ++ '\n' :: tail, false, false⟩ ⟨tail, false, false⟩ ⟨r.id, ⟨0, 1⟩, ""⟩
    (decimal r.id) tl
    (decimalPadded 9 '0' r.time.beginTime ++ decimalPadded 9 '0' r.time.endTime)
    r.text.data r.time.beginTime r.time.endTime pb pe
    (by
      rw [skipEmptyLines_step _ _ _ (by rfl)]
      dsimp only
      rw [hstream, readLine_line _ _ _ hd1 (getLast?_ne_of_not_mem hd2)]
      exact skipEmptyLines_stop _ _ _ (by simp [hdne]))
    hdne (stoul_decimal r.id hmax) (by show r.id ≠ 0; omega)
    (readLine_line _ _ _ ht1 (getLast?_ne_of_not_mem ht2)) hce
    (by rw [List.length_append, hpb]; omega)
    (by rw [List.take_left' hpb]; exact hsb)
    (by rw [List.drop_left' hpb, List.take_of_length_le (by omega)]; exact hse)
    hlt
    (by
      dsimp only
      rw [htext]
      exact readText_lines lines tail hl _ (by
        have := length_le_flatten_lines lines
        simp only [List.length_append, List.length_cons]
        omega) tl [])
    (by
      rw [htext]
      obtain ⟨l, ls, rfl⟩ := List.exists_cons_of_ne_nil hne
      simp)
  rw [hres]

/-- The loop of `Read` on what `Write` writes for rereadable records numbered
from `subs.length + 1`: all of them are read, then the end of the input
rejects one more subtitle. -/
theorem read_loop_records (T subs : List CSubtitle) (fuel : Nat)
    (hf : T.length + 1 ≤ fuel) (hT : ∀ r ∈ T, Rereadable r)
    (hids : T.map (·.id) = List.range' (subs.length + 1) T.length) :
    Read.loop fuel ⟨(T.map recordText).flatten, false, false⟩ subs =
      .ok (⟨[], true, true⟩, subs ++ T ++ [⟨subs.length + T.length + 1, ⟨0, 1⟩, ""⟩]) := by
  induction T generalizing subs fuel with
  | nil =>
    cases fuel with
    | zero => simp at hf
    | succ f =>
      rw [read_loop_step _ _ _ (by rfl)]
      have hrs : ReadSubtitle ⟨[], false, false⟩ ⟨subs.length + 1, ⟨0, 1⟩, ""⟩ =
          .ok (false, ⟨[], true, true⟩, ⟨subs.length + 1, ⟨0, 1⟩, ""⟩) :=
        readSubtitle_empty_line ⟨[], false, false⟩ _ (by decide)
      simp only [List.map_nil, List.flatten_nil, hrs, List.append_nil, List.length_nil,
        Nat.add_zero]
  | cons r rest ih =>
    cases fuel with
    | zero => simp at hf
    | succ f =>
      rw [read_loop_step _ _ _ (by rfl)]
      simp only [List.map_cons, List.length_cons] at hids
      rw [List.range'_succ] at hids
      have hid : r.id = subs.length + 1 := (List.cons.inj hids).1
      have hids' : rest.map (·.id) = List.range' ((subs ++ [r]).length + 1) rest.length := by
        simpa using (List.cons.inj hids).2
      rw [List.map_cons, List.flatten_cons, ← hid,
        readSubtitle_record r _ (hT r (List.mem_cons_self _ _))]
      dsimp only
      rw [ih (subs ++ [r]) f (by simp at hf; omega)
        (fun x hx => hT x (List.mem_cons_of_mem _ hx)) hids']
      simp [Nat.add_assoc, Nat.add_comm 1]

/-- `Read` on what `Write` writes for a track of rereadable records with ids
`1, 2, ...` returns success with that track. -/
theorem read_write_rereadable (T : List CSubtitle) (hT : ∀ r ∈ T, Rereadable r)
    (hids : T.map (·.id) = List.range' 1 T.length) :
    Write T = (true, (T.map recordText).flatten) ∧
    Read ⟨(T.map recordText).flatten, false, false⟩ = .ok (true, ⟨[], true, true⟩, T) := by
  constructor
  · have := write_loop_ok T [] (fun r hr => by
      obtain ⟨-, -, h1, h2, -⟩ := hT r hr
      exact ⟨by omega, h2⟩)
    simpa [Write] using this
  · have hlen : T.length ≤ ((T.map recordText).flatten).length := by
      clear hT hids
      induction T with
      | nil => simp
      | cons r rest ih =>
        simp only [List.map_cons, List.flatten_cons, List.length_append, List.length_cons,
          recordText]
        omega
    unfold Read
    dsimp only
    rw [read_loop_records T [] _ (by omega) hT (by simpa using hids)]
    simp [bind, Except.bind, pure, Except.pure, IStream.eof]


theorem crlf_infix_of_line (lines : List (List Char)) (l : List Char) (hl : l ∈ lines)
    (hcr : l.getLast? = some '\r') :
    ['\r', '\n'] <:+: (lines.map (· ++ ['\n'])).flatten := by
  obtain ⟨L1, L2, rfl⟩ := List.append_of_mem hl
  have hlast : l.dropLast ++ ['\r'] = l := List.dropLast_append_getLast? '\r' hcr
  refine ⟨(L1.map (· ++ ['\n'])).flatten ++ l.dropLast, (L2.map (· ++ ['\n'])).flatten, ?_⟩
  conv_rhs => rw [← hlast]
  simp

/-- A record that `ReadSubtitle` accepted, that ends before `10^9` and whose
text has no `\r` right before a `\n`, is rereadable. -/
theorem rereadable_of_recordOK (r : CSubtitle) (hok : RecordOK r)
    (hend : r.time.endTime < 10 ^ 9) (hcr : ¬ (['\r', '\n'] <:+: r.text.data)) :
    Rereadable r := by
  obtain ⟨hv, hne, ⟨lines, hl, htext⟩, hpos, hmax⟩ := hok
  refine ⟨hpos, hmax, hv, hend, lines, ?_, ?_, htext⟩
  · rintro rfl
    exact hne (by simpa using htext)
  · intro l hlm
    refine ⟨(hl l hlm).1, (hl l hlm).2, ?_⟩
    intro hlast
    exact hcr (htext ▸ crlf_infix_of_line lines l hlm hlast)

/-! ## Read and Write: round trip -/

/-- C13, the claim refuted.  A text line that ends in `\r\r` is read with one
`\r` left; `Write` writes it back followed by `\n`, and reading that text
drops the `\r`: the text of the record read back differs.  And a time block
with a sign is `stoul`-read as a number (`ULONG_MAX` for `-00000001`) that
`Write` cannot write. -/
theorem C13_roundtrip_fails :
    Read (IStream.ofString "1\n00:00:01,000 --> 00:00:02,000\nHi\r\r\n\n") =
      .ok (true, ⟨[], true, true⟩, [⟨1, ⟨1000, 2000⟩, "Hi\r\n"⟩]) ∧
    Write [⟨1, ⟨1000, 2000⟩, "Hi\r\n"⟩] =
      (true, "1\n00:00:01,000 --> 00:00:02,000\nHi\r\n\n".data) ∧
    Read (IStream.ofString "1\n00:00:01,000 --> 00:00:02,000\nHi\r\n\n") =
      .ok (true, ⟨[], true, true⟩, [⟨1, ⟨1000, 2000⟩, "Hi\n"⟩]) ∧
    Read (IStream.ofString "1\n00:00:00,001 --> -0:00:00,001\nHi\n\n") =
      .ok (true, ⟨[], true, true⟩, [⟨1, ⟨1, 18446744073709551615⟩, "Hi\n"⟩]) ∧
    (Write [⟨1, ⟨1, 18446744073709551615⟩, "Hi\n"⟩]).1 = false := by
  decide

/-- C13, amended: when `Read` succeeds and yields a track `T` in which every
record ends before `10^9` and no text has a `\r` right before a `\n`, `Write(T)`
succeeds, and `Read` on the text it wrote succeeds and yields `T` again: the
same number of records, each with the same id, begin, end and text. -/
theorem C13_roundtrip (input i' : IStream) (T : List CSubtitle)
    (h : Read input = .ok (true, i', T))
    (hT : ∀ r ∈ T, r.time.endTime < 10 ^ 9 ∧ ¬ (['\r', '\n'] <:+: r.text.data)) :
    ∃ out i'', Write T = (true, out) ∧ Read ⟨out, false, false⟩ = .ok (true, i'', T) := by
  obtain ⟨hids, hrec⟩ := read_records_ok _ _ _ _ h
  have hre : ∀ r ∈ T, Rereadable r := fun r hr =>
    rereadable_of_recordOK r (hrec r hr) (hT r hr).1 (hT r hr).2
  obtain ⟨hw, hr⟩ := read_write_rereadable T hre hids
  exact ⟨_, _, hw, hr⟩

theorem C13_roundtrip_witness :
    Read (IStream.ofString
        "1\n00:00:01,000 --> 00:00:02,000\nHi\n\n2\n00:00:03,000 --> 00:00:04,000\nHo\r\nHum\n\n") =
      .ok (true, ⟨[], true, true⟩,
        [⟨1, ⟨1000, 2000⟩, "Hi\n"⟩, ⟨2, ⟨3000, 4000⟩, "Ho\nHum\n"⟩]) ∧
    (∀ r ∈ [CSubtitle.mk 1 ⟨1000, 2000⟩ "Hi\n", ⟨2, ⟨3000, 4000⟩, "Ho\nHum\n"⟩],
      r.time.endTime < 10 ^ 9 ∧ ¬ (['\r', '\n'] <:+: r.text.data)) ∧
    ∃ out i'', Write [⟨1, ⟨1000, 2000⟩, "Hi\n"⟩, ⟨2, ⟨3000, 4000⟩, "Ho\nHum\n"⟩] = (true, out) ∧
      Read ⟨out, false, false⟩ =
        .ok (true, i'', [⟨1, ⟨1000, 2000⟩, "Hi\n"⟩, ⟨2, ⟨3000, 4000⟩, "Ho\nHum\n"⟩]) :=
  ⟨by decide, by decide,
    C13_roundtrip (IStream.ofString
        "1\n00:00:01,000 --> 00:00:02,000\nHi\n\n2\n00:00:03,000 --> 00:00:04,000\nHo\r\nHum\n\n")
      ⟨[], true, true⟩ _ (by decide) (by decide)⟩


end SubMerge
